import Mathlib

/-!
Verification of the safe query pipeline of the `cerebro-invenbot` repository.

The Python sources are shallowly embedded as executable Lean definitions:
strings are handled as `List Char` internally (with `String` wrappers at the
component boundaries), Python regular-expression based helpers are translated
into specialized scanning functions that reproduce the behaviour of the
concrete patterns appearing in the source, and the effectful collaborators
(language model, database, chat store) are abstracted as explicit parameters.

Embedded components:
* `src/utils/sql_extractor.py`  — extraction, safety validation, field filter
* `src/memory/chat_memory.py`   — `CleanChatMemory.save_exchange`
* `src/engines/safe_sql_engine.py` — `SafeSQLEngine.query` retry loop
* `src/orchestrator/query_orchestrator.py` — memory-persistence decision
-/

namespace Cerebro

/-! ## Basic character and string utilities (Python semantics) -/

/-- Python `\s` / `str.strip` whitespace, ASCII range (the only whitespace
characters occurring in the embedded component's inputs). -/
def isWs (c : Char) : Bool :=
  c == ' ' || c == '\t' || c == '\n' || c == '\r' ||
  c == Char.ofNat 11 || c == Char.ofNat 12

/-- Python `str.lower`, restricted to ASCII plus the Spanish letters that
occur in the embedded component's string constants; written as an explicit
character table so that proofs can reason by case analysis. -/
def pyLower (c : Char) : Char :=
  match c with
  | 'A' => 'a' | 'B' => 'b' | 'C' => 'c' | 'D' => 'd' | 'E' => 'e'
  | 'F' => 'f' | 'G' => 'g' | 'H' => 'h' | 'I' => 'i' | 'J' => 'j'
  | 'K' => 'k' | 'L' => 'l' | 'M' => 'm' | 'N' => 'n' | 'O' => 'o'
  | 'P' => 'p' | 'Q' => 'q' | 'R' => 'r' | 'S' => 's' | 'T' => 't'
  | 'U' => 'u' | 'V' => 'v' | 'W' => 'w' | 'X' => 'x' | 'Y' => 'y'
  | 'Z' => 'z'
  | 'Á' => 'á' | 'É' => 'é' | 'Í' => 'í' | 'Ó' => 'ó' | 'Ú' => 'ú'
  | 'Ñ' => 'ñ' | 'Ü' => 'ü'
  | c => c

/-- Python `str.upper`, restricted to ASCII plus the Spanish letters that
occur in the embedded component's string constants. -/
def pyUpper (c : Char) : Char :=
  match c with
  | 'a' => 'A' | 'b' => 'B' | 'c' => 'C' | 'd' => 'D' | 'e' => 'E'
  | 'f' => 'F' | 'g' => 'G' | 'h' => 'H' | 'i' => 'I' | 'j' => 'J'
  | 'k' => 'K' | 'l' => 'L' | 'm' => 'M' | 'n' => 'N' | 'o' => 'O'
  | 'p' => 'P' | 'q' => 'Q' | 'r' => 'R' | 's' => 'S' | 't' => 'T'
  | 'u' => 'U' | 'v' => 'V' | 'w' => 'W' | 'x' => 'X' | 'y' => 'Y'
  | 'z' => 'Z'
  | 'á' => 'Á' | 'é' => 'É' | 'í' => 'Í' | 'ó' => 'Ó' | 'ú' => 'Ú'
  | 'ñ' => 'Ñ' | 'ü' => 'Ü'
  | c => c

/-- Case-insensitive character comparison (Python `re.IGNORECASE`). -/
def charCI (a b : Char) : Bool := pyLower a == pyLower b

def lowerL (l : List Char) : List Char := l.map pyLower

def upperL (l : List Char) : List Char := l.map pyUpper

/-- The `startsWithSeq nd l` : does `l` start with `nd`? -/
def startsWithSeq : List Char → List Char → Bool
  | [], _ => true
  | _ :: _, [] => false
  | n :: ns, c :: cs => n == c && startsWithSeq ns cs

/-- Case-insensitive version of `startsWithSeq`. -/
def startsWithSeqCI : List Char → List Char → Bool
  | [], _ => true
  | _ :: _, [] => false
  | n :: ns, c :: cs => charCI n c && startsWithSeqCI ns cs

/-- Substring containment (Python `nd in hay`). -/
def containsSub (hay nd : List Char) : Bool :=
  if startsWithSeq nd hay then true
  else
    match hay with
    | [] => false
    | _ :: t => containsSub t nd

/-- Python `nd in hay` on `String`s. -/
def pyContains (hay nd : String) : Bool := containsSub hay.data nd.data

/-- Python `str.lower` on `String`s. -/
def pyLowerS (s : String) : String := String.mk (lowerL s.data)

/-- Python `str.upper` on `String`s. -/
def pyUpperS (s : String) : String := String.mk (upperL s.data)

/-- Python `str.strip` on char lists. -/
def stripL (l : List Char) : List Char :=
  ((l.dropWhile isWs).reverse.dropWhile isWs).reverse

/-- Python `str.strip` on `String`s. -/
def pyStripS (s : String) : String := String.mk (stripL s.data)

/-- Python `str.rstrip(";")`. -/
def rstripSemi (l : List Char) : List Char :=
  (l.reverse.dropWhile (fun c => c == ';')).reverse

/-- Length of the leading whitespace run. -/
def wsRun (l : List Char) : Nat := (l.takeWhile isWs).length

/-- Fuelled worker for `collapseWs`; the fuel is an upper bound on the list
length, so the recursion is structural and evaluates inside the kernel. -/
def collapseWsF : Nat → List Char → List Char
  | 0, l => l
  | _ + 1, [] => []
  | fuel + 1, c :: cs =>
    if isWs c then ' ' :: collapseWsF fuel (cs.dropWhile isWs)
    else c :: collapseWsF fuel cs

/-- The `re.sub(r"\s+", " ", ·)` : collapse every maximal whitespace run to a
single space. -/
def collapseWs (l : List Char) : List Char := collapseWsF l.length l

/-! ## SQL extraction  (`src/utils/sql_extractor.py`)

The Python module drives a handful of concrete regular expressions.  Each
regex is translated into a specialized scanner with the same matching
semantics for the concrete pattern (leftmost match, greedy `\s+`/`\s*`
against following non-whitespace literals, lazy `.+?`/`.*?` with
backtracking into a greedy whitespace run where the pattern allows it).
`extract_sql` returns `none` where the source raises `SQLExtractionError`.
-/

/-- Generic leftmost-match scan: try the matcher on every suffix, left to
right, returning the first hit (`re.search`). -/
def scanFirst {α : Type} (m : List Char → Option α) : List Char → Option α
  | [] => m []
  | l@(_ :: t) =>
    match m l with
    | some r => some r
    | none => scanFirst m t

/-- Leftmost index at which a case-insensitive literal occurs
(`re.search` with a literal pattern under `re.IGNORECASE`). -/
def findCIIdx (pat : List Char) : List Char → Option Nat
  | [] => if startsWithSeqCI pat [] then some 0 else none
  | l@(_ :: t) =>
    if startsWithSeqCI pat l then some 0
    else (findCIIdx pat t).map (· + 1)

/-- The `_clean_sql`: strip, strip trailing semicolons, re-append exactly one,
collapse whitespace runs. -/
def clean_sql (l : List Char) : List Char :=
  collapseWs (stripL (rstripSemi (stripL l)) ++ [';'])

/-- The `_looks_like_sql`. -/
def looks_like_sql (l : List Char) : Bool :=
  if l.isEmpty then false
  else
    let upper := stripL (upperL l)       -- text.upper().strip()
    if !(startsWithSeq ("SELECT".data) upper
        || startsWithSeq ("WITH".data) upper) then false
    else if startsWithSeq ("SELECT".data) upper
        && !containsSub upper ("FROM".data) then false
    else true

/-- The `_remove_trailing_text` literal stop patterns, in source order (the final
`\.\s*Esta` pattern is handled separately by `dotEstaAt`). -/
def rttPatterns : List (List Char) :=
  [("\n\nEsta").data, ("\n\nAquí").data, ("\n\nLa consulta").data,
   ("\n\nEsto busca").data, ("\n\nExplicación").data, ("\n\n--").data,
   ("\nEsta consulta").data]

/-- Matcher for the stop pattern `\.\s*Esta` at the head of a suffix. -/
def dotEstaAt : List Char → Bool
  | '.' :: rest => startsWithSeqCI ("Esta".data) (rest.drop (wsRun rest))
  | _ => false

/-- Leftmost index at which `dotEstaAt` fires. -/
def findDotEstaIdx : List Char → Option Nat
  | [] => none
  | l@(_ :: t) =>
    if dotEstaAt l then some 0
    else (findDotEstaIdx t).map (· + 1)

/-- Truncate before the leftmost occurrence of a literal stop pattern. -/
def truncAtPat (l : List Char) (pat : List Char) : List Char :=
  match findCIIdx pat l with
  | some i => l.take i
  | none => l

/-- The `_remove_trailing_text`: truncate at each stop pattern in order, then
strip. -/
def removeTrailingText (sql : List Char) : List Char :=
  let sql := rttPatterns.foldl truncAtPat sql
  let sql := match findDotEstaIdx sql with
    | some i => sql.take i
    | none => sql
  stripL sql

/-- Closing-fence search for strategy 1 (`\s*(.*?)\s*```` tail): walk the
text; at each point, if skipping the whitespace run lands on a closing
fence, the accumulated characters are the lazy group.  Mirrors the regex:
the group ends at the first position from which `\s*```` can match. -/
def fenceContent : List Char → List Char → Option (List Char)
  | l, acc =>
    if startsWithSeq ("```".data) (l.drop (wsRun l)) then some acc.reverse
    else
      match l with
      | [] => none
      | c :: t => fenceContent t (c :: acc)

/-- Strategy 1 matcher at one position: `` ```sql\s*(.*?)\s*``` ``. -/
def match1At (l : List Char) : Option (List Char) :=
  if startsWithSeqCI ("```sql".data) l then
    let rest := l.drop 6
    fenceContent (rest.drop (wsRun rest)) []
  else none

/-- The `_extract_from_sql_block` (strategy 1). -/
def str1 (text : List Char) : Option (List Char) :=
  match scanFirst match1At text with
  | some content =>
    let sql := stripL content
    if looks_like_sql sql then some (clean_sql sql) else none
  | none => none

/-- Closing-fence search for strategy 2; also returns the remainder after
the closing fence (``findall`` resumes scanning there). -/
def fenceContentRest : List Char → List Char → Option (List Char × List Char)
  | l, acc =>
    let w := wsRun l
    if startsWithSeq ("```".data) (l.drop w) then
      some (acc.reverse, (l.drop w).drop 3)
    else
      match l with
      | [] => none
      | c :: t => fenceContentRest t (c :: acc)

/-- Strategy 2 matcher at one position: `` ```\s*(.*?)\s*``` ``. -/
def match2At (l : List Char) : Option (List Char × List Char) :=
  if startsWithSeq ("```".data) l then
    let rest := l.drop 3
    fenceContentRest (rest.drop (wsRun rest)) []
  else none

/-- The `re.findall` for strategy 2: all non-overlapping fenced-block contents,
left to right.  Fuel bounds the scan length (the text length suffices). -/
def allFences : Nat → List Char → List (List Char)
  | 0, _ => []
  | _ + 1, [] => []
  | fuel + 1, l@(_ :: t) =>
    match match2At l with
    | some (content, rest) => content :: allFences fuel rest
    | none => allFences fuel t

/-- The `_extract_from_code_block` (strategy 2): first fenced block that looks
like SQL. -/
def str2 (text : List Char) : Option (List Char) :=
  (allFences text.length text).foldr
    (fun c acc =>
      let sql := stripL c
      if looks_like_sql sql then some (clean_sql sql) else acc)
    none

/-- Index of the first semicolon. -/
def findSemiIdx : List Char → Option Nat
  | [] => none
  | c :: t => if c == ';' then some 0 else (findSemiIdx t).map (· + 1)

/-- Strategy 3 matcher at one position: `(SELECT\s+.+?;)` under
`re.DOTALL | re.IGNORECASE`.  After `SELECT` and the greedy whitespace run
of length `r`, the lazy `.+?` needs at least one character and then a
semicolon: the match ends at the first `;` strictly after the first
post-run character; failing that, the engine backtracks one whitespace
character (possible only when `r ≥ 2`) so `.` can consume it and the `;`
may sit immediately after the run. -/
def match3At (l : List Char) : Option (List Char) :=
  if startsWithSeqCI ("SELECT".data) l then
    let l₁ := l.drop 6
    let r := wsRun l₁
    if r == 0 then none
    else
      let l₂ := l₁.drop r
      match findSemiIdx (l₂.drop 1) with
      | some j => some (l.take (6 + r + 1 + j + 1))
      | none =>
        if r ≥ 2 && startsWithSeq ([';']) l₂ then some (l.take (6 + r + 1))
        else none
  else none

/-- The `_extract_select_with_semicolon` (strategy 3): no `_looks_like_sql`
check on this path. -/
def str3 (text : List Char) : Option (List Char) :=
  (scanFirst match3At text).map (fun g => clean_sql (stripL g))

/-- Delimiter alternatives of strategy 4 other than `$`. -/
def delim4At (l : List Char) : Bool :=
  startsWithSeq ("\n\n".data) l || startsWithSeqCI ("\nEsta".data) l
    || startsWithSeqCI ("\nAquí".data) l || startsWithSeqCI ("\nLa consulta".data) l
    || startsWithSeqCI ("\nEsto".data) l

/-- A point where strategy 4 may stop: a delimiter alternative, the end of
text, or just before a final newline (`$` without `re.MULTILINE`). -/
def stop4At (l : List Char) : Bool :=
  delim4At l || l.isEmpty || l == ['\n']

/-- Least `k ≥ 1` with a strategy-4 stop after dropping `k` characters of
`m`; total because the empty tail always stops. -/
def findLeastK : List Char → Nat
  | [] => 0
  | [_] => 1
  | _ :: c :: t => if stop4At (c :: t) then 1 else 1 + findLeastK (c :: t)

/-- Strategy 4 matcher at one position:
`(SELECT\s+.+?)(?:\n\n|\nEsta|\nAquí|\nLa consulta|\nEsto|$)`. -/
def match4At (l : List Char) : Option (List Char) :=
  if startsWithSeqCI ("SELECT".data) l then
    let l₁ := l.drop 6
    let r := wsRun l₁
    if r == 0 then none
    else
      let m := l₁.drop r
      if !m.isEmpty then some (l.take (6 + r + findLeastK m))
      else if r ≥ 2 then some l    -- `.` backtracks into the whitespace run
      else none
  else none

/-- The `_extract_select_to_end` (strategy 4). -/
def str4 (text : List Char) : Option (List Char) :=
  match scanFirst match4At text with
  | some g =>
    let sql := stripL g                  -- match.group(1).strip()
    let sql := removeTrailingText sql
    if looks_like_sql sql then some (clean_sql sql) else none
  | none => none

/-- The `_extract_if_starts_with_select` (strategy 5). -/
def str5 (text : List Char) : Option (List Char) :=
  if startsWithSeq ("SELECT".data) (upperL text) then
    let sql := removeTrailingText text
    if looks_like_sql sql then some (clean_sql sql) else none
  else none

/-- The `extract_sql`: the five strategies in priority order; `none` models the
`SQLExtractionError` raise. -/
def extract_sql (raw_response : String) : Option String :=
  if (stripL raw_response.data).isEmpty then none
  else
    let text := stripL raw_response.data
    (str1 text <|> str2 text <|> str3 text <|> str4 text <|> str5 text).map
      String.mk

/-- The `validate_sql_safety` denylist — verbatim from the source. -/
def dangerous_keywords : List String :=
  ["DROP", "DELETE", "UPDATE", "INSERT", "ALTER", "CREATE",
   "TRUNCATE", "GRANT", "REVOKE", "EXEC", "EXECUTE",
   "INTO OUTFILE", "LOAD_FILE", "--", "/*"]

/-- The `validate_sql_safety`: returns `(is_safe, error_message)`; the loop
over the denylist returning on the first hit is `find?`, `upper` is
`sql.upper()` and `stripL upper` is `upper.strip()`. -/
def validate_sql_safety (sql : String) : Bool × String :=
  match dangerous_keywords.find?
      (fun k => containsSub (upperL sql.data) k.data) with
  | some k => (false, "SQL contains forbidden keyword: " ++ k)
  | none =>
    if startsWithSeq ("SELECT".data) (stripL (upperL sql.data))
        || startsWithSeq ("WITH".data) (stripL (upperL sql.data)) then (true, "")
    else (false, "Query must start with SELECT or WITH")

/-! ### `filter_forbidden_fields`

Each of the four interpolated regexes is translated into a matcher that
reports the number of characters consumed at the head of a suffix; `subAll`
is `re.sub(pattern, "", ·)`: a left-to-right scan deleting every
non-overlapping match.  The field names are plain identifiers (no
whitespace, no regex metacharacters), which the translation relies on. -/

/-- The `,\s*field\s*(?=,|FROM)` — field in the middle of a projection. -/
def fieldMid (field : List Char) : List Char → Option Nat
  | ',' :: rest =>
    let w₁ := wsRun rest
    let r₁ := rest.drop w₁
    if startsWithSeqCI field r₁ then
      let r₂ := r₁.drop field.length
      let w₂ := wsRun r₂
      let r₃ := r₂.drop w₂
      if startsWithSeq ([',']) r₃ || startsWithSeqCI ("FROM".data) r₃ then
        some (1 + w₁ + field.length + w₂)
      else none
    else none
  | _ => none

/-- The `field\s*,` — field at the start of a projection. -/
def fieldStart (field : List Char) (l : List Char) : Option Nat :=
  if startsWithSeqCI field l then
    let r := l.drop field.length
    let w := wsRun r
    if startsWithSeq ([',']) (r.drop w) then some (field.length + w + 1)
    else none
  else none

/-- The `,\s*field\s*(?=FROM)` — field at the end of a projection. -/
def fieldEnd (field : List Char) : List Char → Option Nat
  | ',' :: rest =>
    let w₁ := wsRun rest
    let r₁ := rest.drop w₁
    if startsWithSeqCI field r₁ then
      let r₂ := r₁.drop field.length
      let w₂ := wsRun r₂
      if startsWithSeqCI ("FROM".data) (r₂.drop w₂) then
        some (1 + w₁ + field.length + w₂)
      else none
    else none
  | _ => none

/-- The `\.\s*field\s*(?=,|FROM)` — qualified `table.field`. -/
def fieldQual (field : List Char) : List Char → Option Nat
  | '.' :: rest =>
    let w₁ := wsRun rest
    let r₁ := rest.drop w₁
    if startsWithSeqCI field r₁ then
      let r₂ := r₁.drop field.length
      let w₂ := wsRun r₂
      let r₃ := r₂.drop w₂
      if startsWithSeq ([',']) r₃ || startsWithSeqCI ("FROM".data) r₃ then
        some (1 + w₁ + field.length + w₂)
      else none
    else none
  | _ => none

/-- The `re.sub(pattern, "", ·)`: delete every non-overlapping match, scanning
left to right.  Fuel bounds the scan (the text length suffices, since every
match consumes at least one character). -/
def subAll (m : List Char → Option Nat) : Nat → List Char → List Char
  | 0, l => l
  | _ + 1, [] => []
  | fuel + 1, c :: t =>
    match m (c :: t) with
    | some n => if n == 0 then c :: subAll m fuel t else subAll m fuel ((c :: t).drop n)
    | none => c :: subAll m fuel t

/-- The `filter_forbidden_fields`: apply the four substitutions for each
forbidden field, in source order. -/
def filter_forbidden_fields (sql : String) (forbidden_fields : List String) :
    String :=
  String.mk (forbidden_fields.foldl
    (fun l field =>
      let f := field.data
      let l := subAll (fieldMid f) l.length l
      let l := subAll (fieldStart f) l.length l
      let l := subAll (fieldEnd f) l.length l
      subAll (fieldQual f) l.length l)
    sql.data)

/-! ## Conversation memory  (`src/memory/chat_memory.py`, `CleanChatMemory`)

The chat store is modelled per conversation key: the ordered sequence of
stored turns for one `conversation_id`.  `save_exchange` takes the current
sequence and returns the `(saved?, new sequence)` pair; a refusal leaves the
sequence unchanged.
-/

inductive Role where
  | user
  | assistant
deriving DecidableEq, Repr

/-- A stored conversation turn (role plus content). -/
structure Turn where
  role : Role
  content : String
deriving DecidableEq, Repr

/-- The `CleanChatMemory.ERROR_INDICATORS` — verbatim from the source. -/
def ERROR_INDICATORS : List String :=
  ["error al intentar",
   "consulta sql",
   "```sql",
   "select ",
   "from consultores",
   "where ",
   "parece que hubo",
   "no encontré información",
   "hubo un problema",
   "sql debido",
   "intentar ejecutar"]

/-- The `CleanChatMemory.MAX_MESSAGES`. -/
def MAX_MESSAGES : Nat := 10

/-- The `CleanChatMemory.save_exchange`.  Returns `(saved?, new stored sequence)`.
The store collaborator is modelled as succeeding, so the `try/except` around
`_get_messages`/`_set_messages` has no failing branch here; every refusal
path below occurs before any store interaction in the source. -/
def save_exchange (messages₀ : List Turn)
    (user_question assistant_response : String) (was_successful : Bool) :
    Bool × List Turn :=
  if !was_successful then
    (false, messages₀)
  else if pyContains user_question ("SYSTEM INSTRUCTIONS")
      || pyContains user_question ("SYSTEM_PROMPT") then
    (false, messages₀)
  else if ERROR_INDICATORS.any
      (fun ind => pyContains (pyLowerS assistant_response) ind) then
    (false, messages₀)
  else
    let messages := messages₀ ++
      [⟨Role.user, pyStripS user_question⟩,
       ⟨Role.assistant, pyStripS assistant_response⟩]
    let messages := if messages.length > MAX_MESSAGES
      then messages.drop (messages.length - MAX_MESSAGES)  -- messages[-10:]
      else messages
    (true, messages)

/-! ## Safe SQL engine  (`src/engines/safe_sql_engine.py`, `SafeSQLEngine.query`)

One attempt of the engine's loop bundles the external generation call,
extraction, validation, filtering and execution.  The embedding abstracts
each attempt's outcome with an oracle `attempts : Nat → Outcome`; the loop
driver itself — the `for attempt in range(self.max_retries)` with its
`except` branches and the terminal result — is translated directly. -/

/-- A database row, as the Python `dict` of one result record. -/
abbrev Row : Type := List (String × String)

/-- Outcome of one attempt of `SafeSQLEngine.query`'s `try` body.
`fail` covers the `ValueError` of the safety check, `SQLAlchemyError`
and the generic `Exception` branch: all store `str(e)` and
`sql if sql else None`. -/
inductive Outcome where
  | ok (data : List Row) (sql : String)
  | timeout
  | extractFail
  | fail (msg : String) (sqlAtFailure : Option String)
deriving DecidableEq

/-- Does the attempt outcome leave the `try` body normally? -/
def Outcome.isOk : Outcome → Bool
  | .ok _ _ => true
  | _ => false

/-- The `last_sql` update performed by the `except` branch for this outcome
(`None` for timeouts and extraction failures). -/
def Outcome.lastSql : Outcome → Option String
  | .ok _ _ => none
  | .timeout => none
  | .extractFail => none
  | .fail _ msql => msql

/-- The `last_error` update performed by the `except` branch for this outcome. -/
def Outcome.lastErr : Outcome → String
  | .ok _ _ => ""
  | .timeout => "LLM request timed out"
  | .extractFail => "Could not generate valid SQL query"
  | .fail msg _ => msg

/-- The `SQLResult` dataclass. -/
structure SQLResult where
  success : Bool
  data : List Row
  sql_executed : String
  error_message : Option String := none
  retries_used : Nat := 0
deriving DecidableEq

/-- Loop worker for `SafeSQLEngine.query`: `remaining` attempts left,
`i` the current 0-based attempt index (`remaining + i = max_retries` at
every call from `SafeSQLEngine_query`). -/
def queryGo (maxRetries : Nat) (attempts : Nat → Outcome) :
    Nat → Nat → Option String → Option String → SQLResult
  | 0, _, lastSql, lastErr =>
    { success := false, data := [], sql_executed := lastSql.getD "",
      error_message := lastErr, retries_used := maxRetries }
  | remaining + 1, i, _, _ =>
    match attempts i with
    | .ok data sql =>
      { success := true, data := data, sql_executed := sql,
        error_message := none, retries_used := i }
    | o => queryGo maxRetries attempts remaining (i + 1) o.lastSql (some o.lastErr)

/-- The `SafeSQLEngine.query`, with the per-attempt work abstracted by the
`attempts` oracle.  Total: every control path of the source resolves to a
returned `SQLResult`. -/
def SafeSQLEngine_query (maxRetries : Nat) (attempts : Nat → Outcome) :
    SQLResult :=
  queryGo maxRetries attempts maxRetries 0 none none

/-! ## Orchestrator  (`src/orchestrator/query_orchestrator.py`)

`process` is embedded for the SQL-engine branch of `_execute_query`
(consultant / project / client searches — the branch cited by the claims).
The language-model synthesis call inside `_synthesize_response` is
abstracted as the `synthAnswer` parameter; the memory store for the given
conversation id is threaded explicitly. -/

/-- The `QueryType` enum (`src/models/schemas.py`). -/
inductive QueryType where
  | CONSULTANT_SEARCH
  | PROJECT_SEARCH
  | CLIENT_SEARCH
  | KNOWLEDGE_SEARCH
  | HYBRID
  | UNKNOWN
deriving DecidableEq

/-- The `.value` strings of `QueryType`. -/
def QueryType.value : QueryType → String
  | .CONSULTANT_SEARCH => "consultant_search"
  | .PROJECT_SEARCH => "project_search"
  | .CLIENT_SEARCH => "client_search"
  | .KNOWLEDGE_SEARCH => "knowledge_search"
  | .HYBRID => "hybrid"
  | .UNKNOWN => "unknown"

/-- The `QueryResult` model (`src/models/schemas.py`), restricted to the fields
populated on the SQL branch (`vector_chunks` stays `None` there). -/
structure QueryResult where
  success : Bool
  data : List Row
  query_type : QueryType
  sql_executed : Option String := none
  error_message : Option String := none
  needs_disambiguation : Bool := false
  disambiguation_message : Option String := none
deriving DecidableEq

/-- The `DISAMBIGUATION_THRESHOLD`. -/
def DISAMBIGUATION_THRESHOLD : Nat := 5

/-- The SQL branch of `_execute_query` (consultant / project / client
search), given the engine's result. -/
def executeQuerySql (query_type : QueryType) (sql_result : SQLResult) :
    QueryResult :=
  let needs := sql_result.success
    && decide (query_type = QueryType.CONSULTANT_SEARCH)
    && decide (sql_result.data.length > DISAMBIGUATION_THRESHOLD)
  { success := sql_result.success,
    data := if needs then sql_result.data.take 10 else sql_result.data,
    query_type := query_type,
    sql_executed := some sql_result.sql_executed,
    error_message := sql_result.error_message,
    needs_disambiguation := needs,
    disambiguation_message := if needs then
      some ("Encontré " ++ toString sql_result.data.length
        ++ " personas con ese nombre.")
      else none }

/-- Python `row.get(key, default)` over the row model. -/
def rowGet (row : Row) (key dflt : String) : String :=
  match List.lookup key row with
  | some v => v
  | none => dflt

/-- One candidate line of `_build_disambiguation_response`. -/
def personInfo (row : Row) : String :=
  let name := rowGet row ("nombrecompleto") ("N/A")
  let email := rowGet row ("email") ("N/A")
  let role := rowGet row ("rolprincipal") ("")
  let location := rowGet row ("ubicacion") ("")
  let s := "• **" ++ name ++ "** (" ++ email ++ ")"
  let s := if role ≠ "" then s ++ " - " ++ role else s
  if location ≠ "" then s ++ " - " ++ location else s

/-- The `_build_disambiguation_response`. -/
def build_disambiguation_response (result : QueryResult) : String :=
  let msg := result.disambiguation_message.getD ""
  let first := if msg ≠ "" then msg
    else "Encontré varias personas con ese nombre:"
  let lines := [first, ""]
    ++ (result.data.take 10).map personInfo
    ++ ["", "¿Podrías indicar a cuál te refieres? Puedes usar el email o el apellido completo."]
  String.intercalate "\n" lines

/-- The `_build_source_nodes`, SQL part (no vector chunks on this branch). -/
def build_source_nodes (result : QueryResult) : List String :=
  if result.sql_executed.getD "" ≠ "" && result.success then
    ["Fuente: Base de datos | Tipo: " ++ result.query_type.value]
  else []

/-- Characters of `l` before the first occurrence of `nd`
(`l.split(nd)[0]` when `nd` occurs). -/
def takeBeforeSub (nd : List Char) : List Char → List Char
  | [] => []
  | l@(c :: t) =>
    if startsWithSeq nd l then []
    else c :: takeBeforeSub nd t

/-- The `_clean_question`. -/
def clean_question (question : String) : String :=
  let q := question.data
  let q := if containsSub q ("SYSTEM INSTRUCTIONS".data)
    then stripL (takeBeforeSub ("SYSTEM INSTRUCTIONS".data) q) else q
  let q := if containsSub q ("SYSTEM_PROMPT".data)
    then stripL (takeBeforeSub ("SYSTEM_PROMPT".data) q) else q
  String.mk (stripL q)

/-- Result of one `process` call, with the memory effects made explicit. -/
structure ProcessOut where
  answer : String
  source_nodes : List String
  saveCalled : Bool
  store : List Turn
deriving DecidableEq

/-- Steps 3–5 of `QueryOrchestrator.process` (response building, source
nodes, conditional memory persistence), for a unified result produced by
`_execute_query`.  `hasConversationId` and `hasMemory` model the truthiness
of `conversation_id` and `self.memory`; `synthAnswer` abstracts the awaited
`_synthesize_response` value on the non-disambiguation path. -/
def processStep (store : List Turn) (question : String)
    (hasConversationId hasMemory : Bool) (result : QueryResult)
    (synthAnswer : String) : ProcessOut :=
  let cq := clean_question question
  let answer := if result.needs_disambiguation
    then build_disambiguation_response result
    else synthAnswer
  let sources := build_source_nodes result
  if hasConversationId && hasMemory && result.success then
    let r := save_exchange store cq answer result.success
    { answer := answer, source_nodes := sources, saveCalled := true,
      store := r.2 }
  else
    { answer := answer, source_nodes := sources, saveCalled := false,
      store := store }

/-! ## Cleanliness class for extraction idempotence

An "already-clean, terminator-present read-only statement": an accepted
entry keyword (`SELECT` or `WITH`, any letter case), one space, a nonempty
body, and a single terminating semicolon; internal whitespace is single
spaces only, there are no stray terminators and no backticks, and the body
has non-whitespace endpoints (the shape `_clean_sql` produces for a single
statement). -/

/-- No two adjacent whitespace characters. -/
def noWsRun : List Char → Bool
  | [] => true
  | [_] => true
  | a :: b :: t => !(isWs a && isWs b) && noWsRun (b :: t)

/-- Conditions on the statement body between the keyword and the
terminator. -/
def bodyOk (body : List Char) : Bool :=
  !body.isEmpty
    && body.all (fun c => !(c == ';') && !(c == '`') && (!isWs c || c == ' '))
    && noWsRun body
    && !(isWs (body.headD 'x'))
    && !(isWs (body.getLastD 'x'))

/-- The clean-statement class quantified over by the idempotence claim. -/
def IsCleanStmt (s : List Char) : Prop :=
  ∃ kw body,
    (lowerL kw = ("select").data ∨ lowerL kw = ("with").data)
    ∧ s = kw ++ ' ' :: (body ++ [';'])
    ∧ bodyOk body = true

/-- Invariant maintained along the left-to-right scan of a clean statement:
the text is a semicolon-free, backtick-free, singly-spaced stretch followed
by the unique terminator, and does not end in whitespace before the
terminator. -/
def ScanInv (u : List Char) : Prop :=
  ∃ w, u = w ++ [';']
    ∧ (∀ c ∈ w, c ≠ ';' ∧ c ≠ '`' ∧ (isWs c = true → c = ' '))
    ∧ noWsRun u = true
    ∧ (∀ c, w.getLast? = some c → isWs c = false)

/-! ### Properties of the utilities -/

theorem startsWithSeq_iff (nd l : List Char) :
    startsWithSeq nd l = true ↔ ∃ t, l = nd ++ t := by
  induction nd generalizing l with
  | nil => simp [startsWithSeq]
  | cons n ns ih =>
    cases l with
    | nil => simp [startsWithSeq]
    | cons c cs =>
      simp only [startsWithSeq, Bool.and_eq_true, beq_iff_eq, ih, List.cons_append,
        List.cons.injEq]
      constructor
      · rintro ⟨rfl, t, rfl⟩; exact ⟨t, rfl, rfl⟩
      · rintro ⟨t, rfl, rfl⟩; exact ⟨rfl, t, rfl⟩

theorem containsSub_iff (hay nd : List Char) :
    containsSub hay nd = true ↔ ∃ p q, hay = p ++ nd ++ q := by
  induction hay with
  | nil =>
    rw [containsSub]
    constructor
    · intro h
      split at h
      · rename_i hs
        rw [startsWithSeq_iff] at hs
        obtain ⟨t, ht⟩ := hs
        exact ⟨[], t, ht⟩
      · exact absurd h (by simp)
    · rintro ⟨p, q, hpq⟩
      have hnil : (p ++ nd) ++ q = [] := by simpa using hpq.symm
      have hnd : nd = [] := (List.append_eq_nil.mp (List.append_eq_nil.mp hnil).1).2
      subst hnd
      simp [startsWithSeq]
  | cons c cs ih =>
    rw [containsSub]
    constructor
    · intro h
      split at h
      · rename_i hs
        rw [startsWithSeq_iff] at hs
        obtain ⟨t, ht⟩ := hs
        exact ⟨[], t, ht⟩
      · obtain ⟨p, q, hpq⟩ := ih.mp h
        exact ⟨c :: p, q, by simp [hpq]⟩
    · rintro ⟨p, q, hpq⟩
      by_cases hs : startsWithSeq nd (c :: cs) = true
      · simp [hs]
      · split
        · rfl
        · cases p with
          | nil =>
            exfalso
            apply hs
            rw [startsWithSeq_iff]
            exact ⟨q, by simpa using hpq⟩
          | cons x xs =>
            apply ih.mpr
            have hcs : cs = xs ++ nd ++ q := by
              have := hpq
              simp only [List.cons_append, List.cons.injEq] at this
              exact this.2
            exact ⟨xs, q, hcs⟩

/-- Substring containment is monotone under embedding the haystack in a
larger string. -/
theorem containsSub_mono {m l : List Char} (nd : List Char)
    (hml : ∃ p q, l = p ++ m ++ q) (h : containsSub m nd = true) :
    containsSub l nd = true := by
  obtain ⟨p, q, rfl⟩ := hml
  obtain ⟨a, b, rfl⟩ := (containsSub_iff _ _).mp h
  exact (containsSub_iff _ _).mpr ⟨p ++ a, b ++ q, by simp⟩

/-- The `stripL` removes a prefix and a suffix of the input. -/
theorem stripL_middle (l : List Char) : ∃ p q, l = p ++ stripL l ++ q := by
  unfold stripL
  refine ⟨l.takeWhile isWs,
    ((l.dropWhile isWs).reverse.takeWhile isWs).reverse, ?_⟩
  have h1 : l = l.takeWhile isWs ++ l.dropWhile isWs :=
    (List.takeWhile_append_dropWhile isWs l).symm
  have h2 : l.dropWhile isWs
      = ((l.dropWhile isWs).reverse.dropWhile isWs).reverse
        ++ ((l.dropWhile isWs).reverse.takeWhile isWs).reverse := by
    have h3 : (l.dropWhile isWs).reverse
        = (l.dropWhile isWs).reverse.takeWhile isWs
          ++ (l.dropWhile isWs).reverse.dropWhile isWs :=
      (List.takeWhile_append_dropWhile isWs (l.dropWhile isWs).reverse).symm
    calc l.dropWhile isWs = (l.dropWhile isWs).reverse.reverse := by
          rw [List.reverse_reverse]
      _ = ((l.dropWhile isWs).reverse.takeWhile isWs
            ++ (l.dropWhile isWs).reverse.dropWhile isWs).reverse := by rw [← h3]
      _ = _ := by rw [List.reverse_append]
  rw [List.append_assoc, ← h2, ← h1]

theorem lowerL_append (a b : List Char) :
    lowerL (a ++ b) = lowerL a ++ lowerL b := List.map_append _ _ _

/-- Containment in a lowered, stripped string implies containment in the
lowered original. -/
theorem containsSub_lower_strip {a nd : List Char}
    (h : containsSub (lowerL (stripL a)) nd = true) :
    containsSub (lowerL a) nd = true := by
  obtain ⟨p, q, hpq⟩ := stripL_middle a
  refine containsSub_mono nd ⟨lowerL p, lowerL q, ?_⟩ h
  conv_lhs => rw [hpq]
  rw [lowerL_append, lowerL_append]

/-! ### Character lemmas -/

theorem pyLower_of_isWs {c : Char} (h : isWs c = true) : pyLower c = c := by
  unfold isWs at h
  simp only [Bool.or_eq_true, beq_iff_eq] at h
  rcases h with ((((rfl | rfl) | rfl) | rfl) | rfl) | rfl <;> decide

theorem pyLower_eq_backtick {c : Char} (h : pyLower c = '`') : c = '`' := by
  unfold pyLower at h
  split at h <;> simp_all

theorem pyLower_eq_w {c : Char} (h : pyLower c = 'w') : c = 'w' ∨ c = 'W' := by
  unfold pyLower at h
  split at h <;> simp_all

/-- A character whose `pyLower` is a given non-whitespace character is
itself not whitespace. -/
theorem not_isWs_of_pyLower {c x : Char} (hk : pyLower c = x)
    (hx : isWs x = false) : isWs c = false := by
  by_contra h
  simp only [Bool.not_eq_false] at h
  rw [pyLower_of_isWs h] at hk
  subst hk
  rw [h] at hx
  exact absurd hx (by simp)

/-- A character whose `pyLower` is a given character differs from any
concrete character with a different `pyLower`. -/
theorem ne_of_pyLower_ne {c x b : Char} (hk : pyLower c = x)
    (hb : pyLower b ≠ x) : c ≠ b := by
  intro he
  subst he
  exact hb hk

/-! ### `startsWithSeq` lemmas -/

theorem startsWithSeqCI_cons {n : Char} {ns l : List Char}
    (h : startsWithSeqCI (n :: ns) l = true) :
    ∃ c cs, l = c :: cs ∧ charCI n c = true ∧ startsWithSeqCI ns cs = true := by
  cases l with
  | nil => simp [startsWithSeqCI] at h
  | cons c cs =>
    simp only [startsWithSeqCI, Bool.and_eq_true] at h
    exact ⟨c, cs, rfl, h.1, h.2⟩

theorem startsWithSeqCI_of_lowerL :
    ∀ (pat kw rest : List Char), lowerL kw = lowerL pat →
      startsWithSeqCI pat (kw ++ rest) = true := by
  intro pat
  induction pat with
  | nil => intro kw rest _; simp [startsWithSeqCI]
  | cons p ps ih =>
    intro kw rest h
    cases kw with
    | nil => simp [lowerL] at h
    | cons k ks =>
      simp only [lowerL, List.map_cons, List.cons.injEq] at h
      simp only [List.cons_append, startsWithSeqCI, Bool.and_eq_true]
      exact ⟨by simp [charCI, h.1], ih ks rest h.2⟩

theorem startsWithSeqCI_length_take :
    ∀ (pat l : List Char), startsWithSeqCI pat l = true →
      pat.length ≤ l.length ∧ lowerL (l.take pat.length) = lowerL pat := by
  intro pat
  induction pat with
  | nil => intro l _; simp [lowerL]
  | cons p ps ih =>
    intro l h
    obtain ⟨c, cs, rfl, hci, hrest⟩ := startsWithSeqCI_cons h
    obtain ⟨hlen, htake⟩ := ih cs hrest
    refine ⟨by simpa using Nat.succ_le_succ hlen, ?_⟩
    simp only [List.length_cons, List.take_succ_cons, lowerL, List.map_cons,
      List.cons.injEq]
    constructor
    · exact (by simpa [charCI] using hci : pyLower p = pyLower c).symm
    · exact htake

/-! ### `noWsRun` lemmas -/

theorem noWsRun_tail {a : Char} {l : List Char}
    (h : noWsRun (a :: l) = true) : noWsRun l = true := by
  cases l with
  | nil => rfl
  | cons b t =>
    simp only [noWsRun, Bool.and_eq_true] at h
    exact h.2

theorem noWsRun_cons_pair {a b : Char} {l : List Char}
    (h : noWsRun (a :: b :: l) = true) : (isWs a && isWs b) = false := by
  simp only [noWsRun, Bool.and_eq_true, Bool.not_eq_true'] at h
  exact h.1

theorem noWsRun_of_all_not_ws :
    ∀ {l : List Char}, (∀ c ∈ l, isWs c = false) → noWsRun l = true := by
  intro l
  induction l with
  | nil => intro _; rfl
  | cons a t ih =>
    intro h
    cases t with
    | nil => rfl
    | cons b u =>
      simp only [noWsRun, Bool.and_eq_true]
      refine ⟨?_, ih (fun c hc => h c (List.mem_cons_of_mem _ hc))⟩
      simp [h a (by simp)]

/-- Prepending characters that are all non-whitespace preserves
`noWsRun`. -/
theorem noWsRun_append_left :
    ∀ {xs ys : List Char}, (∀ c ∈ xs, isWs c = false) →
      noWsRun ys = true → noWsRun (xs ++ ys) = true := by
  intro xs
  induction xs with
  | nil => intro ys _ hys; simpa using hys
  | cons a t ih =>
    intro ys h hys
    have hrec := ih (fun c hc => h c (List.mem_cons_of_mem _ hc)) hys
    cases he : t ++ ys with
    | nil => simp [List.cons_append, he, noWsRun]
    | cons b u =>
      rw [he] at hrec
      simp only [List.cons_append, he, noWsRun, Bool.and_eq_true]
      refine ⟨?_, hrec⟩
      simp [h a (by simp)]

/-- Appending characters that are all non-whitespace preserves
`noWsRun`. -/
theorem noWsRun_append_right :
    ∀ {xs ys : List Char}, noWsRun xs = true →
      (∀ c ∈ ys, isWs c = false) → noWsRun (xs ++ ys) = true := by
  intro xs
  induction xs with
  | nil => intro ys _ h; exact noWsRun_of_all_not_ws h
  | cons a t ih =>
    intro ys hx h
    have hrec := ih (noWsRun_tail hx) h
    cases t with
    | nil =>
      cases ys with
      | nil => rfl
      | cons b u =>
        simp only [List.cons_append, List.nil_append, noWsRun,
          Bool.and_eq_true]
        refine ⟨?_, hrec⟩
        simp [h b (by simp)]
    | cons b u =>
      simp only [List.cons_append, noWsRun, Bool.and_eq_true] at hx ⊢
      exact ⟨hx.1, hrec⟩

theorem noWsRun_drop :
    ∀ (n : Nat) {l : List Char}, noWsRun l = true →
      noWsRun (l.drop n) = true := by
  intro n
  induction n with
  | zero => intro l h; simpa using h
  | succ m ih =>
    intro l h
    cases l with
    | nil => rfl
    | cons a t => exact ih (noWsRun_tail h)

/-! ### Normalization lemmas -/

theorem stripL_eq_self {l : List Char}
    (h1 : ∀ c, l.head? = some c → isWs c = false)
    (h2 : ∀ c, l.getLast? = some c → isWs c = false) :
    stripL l = l := by
  unfold stripL
  have e1 : l.dropWhile isWs = l := by
    cases l with
    | nil => rfl
    | cons c t =>
      rw [List.dropWhile_cons_of_neg]
      simp [h1 c rfl]
  rw [e1]
  have e2 : l.reverse.dropWhile isWs = l.reverse := by
    cases hrev : l.reverse with
    | nil => rfl
    | cons c t =>
      rw [List.dropWhile_cons_of_neg]
      have hc : l.getLast? = some c := by
        rw [← List.head?_reverse, hrev]
        rfl
      simp [h2 c hc]
  rw [e2, List.reverse_reverse]

theorem wsRun_cons_pos {c : Char} {t : List Char} (h : isWs c = true) :
    wsRun (c :: t) = wsRun t + 1 := by
  unfold wsRun
  rw [List.takeWhile_cons_of_pos h]
  simp

theorem wsRun_cons_neg {c : Char} {t : List Char} (h : isWs c = false) :
    wsRun (c :: t) = 0 := by
  unfold wsRun
  rw [List.takeWhile_cons_of_neg (by simp [h])]
  rfl

theorem findSemiIdx_append_semi :
    ∀ {xs : List Char}, (∀ x ∈ xs, x ≠ ';') →
      findSemiIdx (xs ++ [';']) = some xs.length := by
  intro xs
  induction xs with
  | nil => intro _; rfl
  | cons x t ih =>
    intro h
    simp only [List.cons_append, findSemiIdx]
    rw [if_neg (by simp [h x (by simp)])]
    simp only [List.append_eq]
    rw [ih (fun y hy => h y (List.mem_cons_of_mem _ hy))]
    rfl

theorem rstripSemi_append_semi {xs : List Char}
    (h : ∀ c, xs.getLast? = some c → c ≠ ';') :
    rstripSemi (xs ++ [';']) = xs := by
  unfold rstripSemi
  rw [List.reverse_append]
  simp only [List.reverse_cons, List.reverse_nil, List.nil_append,
    List.singleton_append]
  rw [List.dropWhile_cons_of_pos (by simp)]
  have e : xs.reverse.dropWhile (fun c => c == ';') = xs.reverse := by
    cases hrev : xs.reverse with
    | nil => rfl
    | cons c t =>
      rw [List.dropWhile_cons_of_neg]
      have hc : xs.getLast? = some c := by
        rw [← List.head?_reverse, hrev]
        rfl
      simp [h c hc]
  rw [e, List.reverse_reverse]

theorem collapseWsF_eq_self :
    ∀ (fuel : Nat) {l : List Char}, l.length ≤ fuel →
      (∀ c ∈ l, isWs c = true → c = ' ') → noWsRun l = true →
      collapseWsF fuel l = l := by
  intro fuel
  induction fuel with
  | zero => intro l _ _ _; rfl
  | succ f ih =>
    intro l hlen hws hrun
    cases l with
    | nil => rfl
    | cons c t =>
      by_cases hc : isWs c = true
      · have hsp : c = ' ' := hws c (by simp) hc
        have hdrop : t.dropWhile isWs = t := by
          cases t with
          | nil => rfl
          | cons b u =>
            rw [List.dropWhile_cons_of_neg]
            have hp := noWsRun_cons_pair hrun
            rw [hc] at hp
            simp only [Bool.true_and] at hp
            simp [hp]
        simp only [collapseWsF, hc, if_true, hdrop]
        rw [ih (by simpa using Nat.le_of_succ_le_succ hlen)
          (fun x hx => hws x (List.mem_cons_of_mem _ hx))
          (noWsRun_tail hrun)]
        rw [hsp]
      · have hc' : isWs c = false := by simpa using hc
        simp only [collapseWsF, hc', Bool.false_eq_true, if_false]
        rw [ih (by simpa using Nat.le_of_succ_le_succ hlen)
          (fun x hx => hws x (List.mem_cons_of_mem _ hx))
          (noWsRun_tail hrun)]

theorem collapseWs_eq_self {l : List Char}
    (hws : ∀ c ∈ l, isWs c = true → c = ' ') (hrun : noWsRun l = true) :
    collapseWs l = l :=
  collapseWsF_eq_self l.length (Nat.le_refl _) hws hrun

/-! ### Clean statement structure -/

theorem bodyOk_unpack {body : List Char} (h : bodyOk body = true) :
    body ≠ []
    ∧ (∀ c ∈ body, c ≠ ';' ∧ c ≠ '`' ∧ (isWs c = true → c = ' '))
    ∧ noWsRun body = true
    ∧ (∀ c, body.head? = some c → isWs c = false)
    ∧ (∀ c, body.getLast? = some c → isWs c = false) := by
  unfold bodyOk at h
  simp only [Bool.and_eq_true] at h
  obtain ⟨⟨⟨⟨hne, hall⟩, hrun⟩, hhead⟩, hlast⟩ := h
  refine ⟨?_, ?_, hrun, ?_, ?_⟩
  · intro he
    subst he
    simp at hne
  · intro c hc
    simp only [List.all_eq_true] at hall
    have hp := hall c hc
    simp only [Bool.and_eq_true, Bool.not_eq_true', beq_eq_false_iff_ne,
      Bool.or_eq_true, beq_iff_eq] at hp
    refine ⟨hp.1.1, hp.1.2, ?_⟩
    intro hw
    rcases hp.2 with h2 | h2
    · rw [hw] at h2
      exact absurd h2 (by simp)
    · exact h2
  · intro c hc
    cases body with
    | nil => simp at hc
    | cons b t =>
      simp only [List.head?_cons, Option.some.injEq] at hc
      subst hc
      simpa using hhead
  · intro c hc
    rw [List.getLastD_eq_getLast?, hc] at hlast
    simpa using hlast

theorem kw_facts {kw : List Char}
    (h : lowerL kw = ("select").data ∨ lowerL kw = ("with").data) :
    ∀ k ∈ kw, isWs k = false ∧ k ≠ '`' ∧ k ≠ ';' := by
  intro k hk
  have hm : pyLower k ∈ lowerL kw := List.mem_map_of_mem _ hk
  have hx : isWs (pyLower k) = false ∧ pyLower k ≠ '`' ∧ pyLower k ≠ ';' := by
    rcases h with h | h <;> rw [h] at hm
    · exact (by decide :
        ∀ x ∈ ("select").data, isWs x = false ∧ x ≠ '`' ∧ x ≠ ';') _ hm
    · exact (by decide :
        ∀ x ∈ ("with").data, isWs x = false ∧ x ≠ '`' ∧ x ≠ ';') _ hm
  refine ⟨not_isWs_of_pyLower rfl hx.1, ?_, ?_⟩
  · intro he
    apply hx.2.1
    subst he
    rfl
  · intro he
    apply hx.2.2
    subst he
    rfl

theorem kw_ne_nil {kw : List Char}
    (h : lowerL kw = ("select").data ∨ lowerL kw = ("with").data) :
    kw ≠ [] := by
  intro he
  subst he
  rcases h with h | h <;> simp [lowerL] at h

/-- Structural facts about a clean statement
`s = kw ++ ' ' :: (body ++ [';'])`: it is its own strip, its own
`_clean_sql` normal form, and it contains no backtick. -/
theorem clean_stmt_facts {kw body : List Char}
    (hkw : lowerL kw = ("select").data ∨ lowerL kw = ("with").data)
    (hb : bodyOk body = true) :
    stripL (kw ++ ' ' :: (body ++ [';'])) = kw ++ ' ' :: (body ++ [';'])
    ∧ clean_sql (kw ++ ' ' :: (body ++ [';'])) = kw ++ ' ' :: (body ++ [';'])
    ∧ (∀ c ∈ kw ++ ' ' :: (body ++ [';']), c ≠ '`')
    ∧ noWsRun (kw ++ ' ' :: (body ++ [';'])) = true
    ∧ (∀ c ∈ kw ++ ' ' :: (body ++ [';']), isWs c = true → c = ' ') := by
  obtain ⟨hbne, hbmem, hbrun, hbhead, hblast⟩ := bodyOk_unpack hb
  have hkf := kw_facts hkw
  obtain ⟨b, t, rfl⟩ : ∃ b t, body = b :: t := by
    cases body with
    | nil => exact absurd rfl hbne
    | cons b t => exact ⟨b, t, rfl⟩
  obtain ⟨k₀, kw', rfl⟩ : ∃ k₀ kw', kw = k₀ :: kw' := by
    cases kw with
    | nil => exact absurd rfl (kw_ne_nil hkw)
    | cons k₀ kw' => exact ⟨k₀, kw', rfl⟩
  have hbhd : isWs b = false := hbhead b rfl
  have hbl : ∀ c, (b :: t).getLast? = some c → isWs c = false ∧ c ≠ ';' := by
    intro c hc
    have hcmem : c ∈ b :: t := List.mem_of_mem_getLast? (by rw [hc]; rfl)
    exact ⟨hblast c hc, (hbmem c hcmem).1⟩
  -- head and last of the whole statement
  have hhead : ∀ c, ((k₀ :: kw') ++ ' ' :: ((b :: t) ++ [';'])).head? = some c →
      isWs c = false := by
    intro c hc
    simp only [List.cons_append, List.head?_cons, Option.some.injEq] at hc
    subst hc
    exact (hkf k₀ (by simp)).1
  have hlast : ∀ c, ((k₀ :: kw') ++ ' ' :: ((b :: t) ++ [';'])).getLast? = some c →
      isWs c = false := by
    intro c hc
    have he : ((k₀ :: kw') ++ ' ' :: ((b :: t) ++ [';'])).getLast?
        = some ';' := by
      have : (k₀ :: kw') ++ ' ' :: ((b :: t) ++ [';'])
          = ((k₀ :: kw') ++ ' ' :: (b :: t)) ++ [';'] := by simp
      rw [this, List.getLast?_append]
      rfl
    rw [he] at hc
    simp only [Option.some.injEq] at hc
    subst hc
    decide
  have hstrip : stripL ((k₀ :: kw') ++ ' ' :: ((b :: t) ++ [';']))
      = (k₀ :: kw') ++ ' ' :: ((b :: t) ++ [';']) :=
    stripL_eq_self hhead hlast
  -- whitespace facts for the whole statement
  have hwsmem : ∀ c ∈ (k₀ :: kw') ++ ' ' :: ((b :: t) ++ [';']),
      isWs c = true → c = ' ' := by
    intro c hc hw
    rcases List.mem_append.mp hc with hc | hc
    · rw [(hkf c hc).1] at hw
      exact absurd hw (by simp)
    · rcases List.mem_cons.mp hc with rfl | hc
      · rfl
      · rcases List.mem_append.mp hc with hc | hc
        · exact (hbmem c hc).2.2 hw
        · simp only [List.mem_singleton] at hc
          subst hc
          exact absurd hw (by decide)
  have hrun : noWsRun ((k₀ :: kw') ++ ' ' :: ((b :: t) ++ [';'])) = true := by
    apply noWsRun_append_left (fun c hc => (hkf c hc).1)
    have h1 : noWsRun ((b :: t) ++ [';']) = true :=
      noWsRun_append_right hbrun (by intro c hc; simp at hc; subst hc; decide)
    show noWsRun (' ' :: (b :: (t ++ [';']))) = true
    simp only [noWsRun, Bool.and_eq_true]
    constructor
    · simp [hbhd]
    · simpa using h1
  have hticks : ∀ c ∈ (k₀ :: kw') ++ ' ' :: ((b :: t) ++ [';']), c ≠ '`' := by
    intro c hc
    rcases List.mem_append.mp hc with hc | hc
    · exact (hkf c hc).2.1
    · rcases List.mem_cons.mp hc with rfl | hc
      · decide
      · rcases List.mem_append.mp hc with hc | hc
        · exact (hbmem c hc).2.1
        · simp only [List.mem_singleton] at hc
          subst hc
          decide
  refine ⟨hstrip, ?_, hticks, hrun, hwsmem⟩
  -- clean_sql is the identity on the clean statement
  unfold clean_sql
  rw [hstrip]
  have hsplit : (k₀ :: kw') ++ ' ' :: ((b :: t) ++ [';'])
      = ((k₀ :: kw') ++ ' ' :: (b :: t)) ++ [';'] := by simp
  rw [hsplit]
  have hrs : rstripSemi (((k₀ :: kw') ++ ' ' :: (b :: t)) ++ [';'])
      = (k₀ :: kw') ++ ' ' :: (b :: t) := by
    apply rstripSemi_append_semi
    intro c hc
    have he : ((k₀ :: kw') ++ ' ' :: (b :: t)).getLast?
        = (b :: t).getLast? := by
      rw [List.getLast?_append, List.getLast?_cons_cons]
      cases hgl : (b :: t).getLast? with
      | none => simp at hgl
      | some x => rw [Option.or_some]
    rw [he] at hc
    exact (hbl c hc).2
  rw [hrs]
  have hstrip2 : stripL ((k₀ :: kw') ++ ' ' :: (b :: t))
      = (k₀ :: kw') ++ ' ' :: (b :: t) := by
    apply stripL_eq_self
    · intro c hc
      simp only [List.cons_append, List.head?_cons, Option.some.injEq] at hc
      subst hc
      exact (hkf k₀ (by simp)).1
    · intro c hc
      have he : ((k₀ :: kw') ++ ' ' :: (b :: t)).getLast?
          = (b :: t).getLast? := by
        rw [List.getLast?_append, List.getLast?_cons_cons]
        cases hgl : (b :: t).getLast? with
        | none => simp at hgl
        | some x => rw [Option.or_some]
      rw [he] at hc
      exact (hbl c hc).1
  rw [hstrip2, ← hsplit]
  exact collapseWs_eq_self hwsmem hrun

/-! ### Scan lemmas -/

theorem scanFirst_some {α : Type} {m : List Char → Option α} {l : List Char}
    {a : α} (h : m l = some a) : scanFirst m l = some a := by
  cases l with
  | nil => simpa [scanFirst] using h
  | cons c t => simp [scanFirst, h]

theorem scanFirst_none {α : Type} (m : List Char → Option α) :
    ∀ (l : List Char), (∀ suf, suf <:+ l → m suf = none) →
      scanFirst m l = none := by
  intro l
  induction l with
  | nil => intro h; simpa [scanFirst] using h [] (List.suffix_refl _)
  | cons c t ih =>
    intro h
    simp only [scanFirst, h (c :: t) (List.suffix_refl _)]
    exact ih (fun suf hsuf => h suf (hsuf.trans (List.suffix_cons c t)))

/-- Strategy 3 matches a clean `SELECT` statement whole: the lazy match runs
from the keyword to the unique terminating semicolon. -/
theorem match3At_clean {kw body : List Char}
    (hkw : lowerL kw = ("select").data) (hb : bodyOk body = true) :
    match3At (kw ++ ' ' :: (body ++ [';']))
      = some (kw ++ ' ' :: (body ++ [';'])) := by
  obtain ⟨hbne, hbmem, hbrun, hbhead, hblast⟩ := bodyOk_unpack hb
  obtain ⟨b, t, rfl⟩ : ∃ b t, body = b :: t := by
    cases body with
    | nil => exact absurd rfl hbne
    | cons b t => exact ⟨b, t, rfl⟩
  have hkwlen : kw.length = 6 := by
    have := congrArg List.length hkw
    simpa [lowerL] using this
  have h1 : startsWithSeqCI (("SELECT").data)
      (kw ++ ' ' :: ((b :: t) ++ [';'])) = true := by
    apply startsWithSeqCI_of_lowerL
    rw [hkw]
    decide
  have h2 : (kw ++ ' ' :: ((b :: t) ++ [';'])).drop 6
      = ' ' :: ((b :: t) ++ [';']) := by
    rw [← hkwlen, List.drop_left]
  have h3 : wsRun (' ' :: ((b :: t) ++ [';'])) = 1 := by
    rw [wsRun_cons_pos (by decide)]
    simp only [List.cons_append]
    rw [wsRun_cons_neg (hbhead b rfl)]
  have h4 : findSemiIdx (((' ' :: ((b :: t) ++ [';'])).drop 1).drop 1)
      = some t.length := by
    simp only [List.drop_succ_cons, List.drop_zero, List.cons_append]
    exact findSemiIdx_append_semi
      (fun x hx => ((hbmem x (List.mem_cons_of_mem _ hx)).1))
  have h5 : (kw ++ ' ' :: ((b :: t) ++ [';'])).take (6 + 1 + 1 + t.length + 1)
      = kw ++ ' ' :: ((b :: t) ++ [';']) := by
    have hlen : (kw ++ ' ' :: ((b :: t) ++ [';'])).length
        = 6 + 1 + 1 + t.length + 1 := by
      simp [hkwlen]
      omega
    rw [← hlen, List.take_length]
  unfold match3At
  rw [if_pos h1, h2]
  simp only [h3, Nat.reduceBEq, Bool.false_eq_true, if_false, h4, h5]

theorem str1_none {l : List Char} (h : ∀ c ∈ l, c ≠ '`') : str1 l = none := by
  have hscan : scanFirst match1At l = none := by
    apply scanFirst_none
    intro suf hsuf
    unfold match1At
    rw [if_neg]
    intro hsw
    rw [show ("```sql").data = '`' :: ("``sql").data from rfl] at hsw
    obtain ⟨c, cs, rfl, hci, _⟩ := startsWithSeqCI_cons hsw
    simp only [charCI, beq_iff_eq] at hci
    have hcb : pyLower c = '`' := by
      rw [← hci]
      decide
    have hc := pyLower_eq_backtick hcb
    subst hc
    exact h '`' (hsuf.subset (by simp)) rfl
  unfold str1
  rw [hscan]

theorem allFences_nil :
    ∀ (fuel : Nat) (l : List Char), (∀ c ∈ l, c ≠ '`') →
      allFences fuel l = [] := by
  intro fuel
  induction fuel with
  | zero => intro l _; rfl
  | succ f ih =>
    intro l h
    cases l with
    | nil => rfl
    | cons c t =>
      have hm : match2At (c :: t) = none := by
        unfold match2At
        rw [if_neg]
        intro hsw
        rw [startsWithSeq_iff] at hsw
        obtain ⟨r, hr⟩ := hsw
        rw [show ("```").data ++ r = '`' :: ('`' :: '`' :: r) from rfl] at hr
        simp only [List.cons.injEq] at hr
        exact h c (by simp) hr.1
      simp only [allFences, hm]
      exact ih t (fun x hx => h x (List.mem_cons_of_mem _ hx))

theorem str2_none {l : List Char} (h : ∀ c ∈ l, c ≠ '`') : str2 l = none := by
  unfold str2
  rw [allFences_nil l.length l h]
  rfl

/-- A clean `SELECT` statement is a fixed point of `extract_sql`. -/
theorem extract_clean_select {kw body : List Char}
    (hkw : lowerL kw = ("select").data) (hb : bodyOk body = true) :
    extract_sql (String.mk (kw ++ ' ' :: (body ++ [';'])))
      = some (String.mk (kw ++ ' ' :: (body ++ [';']))) := by
  obtain ⟨hstrip, hclean, hticks, hrun, hws⟩ := clean_stmt_facts (Or.inl hkw) hb
  have hne : (kw ++ ' ' :: (body ++ [';'])).isEmpty = false := by
    simp
  have hstr3 : str3 (kw ++ ' ' :: (body ++ [';']))
      = some (kw ++ ' ' :: (body ++ [';'])) := by
    unfold str3
    rw [scanFirst_some (match3At_clean hkw hb)]
    show some (clean_sql (stripL (kw ++ ' ' :: (body ++ [';'])))) = _
    rw [hstrip, hclean]
  unfold extract_sql
  show (if (stripL (kw ++ ' ' :: (body ++ [';']))).isEmpty = true then none
    else _) = _
  rw [hstrip]
  rw [if_neg (by rw [hne]; exact Bool.false_ne_true)]
  simp only [str1_none hticks, str2_none hticks, hstr3, Option.none_orElse,
    Option.some_orElse, Option.map_some']

theorem noWsRun_of_append_left :
    ∀ {xs ys : List Char}, noWsRun (xs ++ ys) = true → noWsRun xs = true := by
  intro xs
  induction xs with
  | nil => intro ys _; rfl
  | cons a t ih =>
    intro ys h
    cases t with
    | nil => rfl
    | cons b u =>
      simp only [List.cons_append, noWsRun, Bool.and_eq_true] at h ⊢
      exact ⟨h.1, @ih ys (by simpa using h.2)⟩

/-- Parsing a scan suffix at a strategy-3/4 match position: under the scan
invariant, a case-insensitive `SELECT` head followed by whitespace forces
the whole suffix to be a clean `SELECT` statement. -/
theorem parse_select {u : List Char} (hinv : ScanInv u)
    (hsw : startsWithSeqCI (("SELECT").data) u = true)
    (hr : wsRun (u.drop 6) ≠ 0) :
    ∃ kw' body', lowerL kw' = ("select").data
      ∧ u = kw' ++ ' ' :: (body' ++ [';'])
      ∧ bodyOk body' = true := by
  obtain ⟨w, rfl, hwmem, hrun, hlastw⟩ := hinv
  obtain ⟨hlen6, htake6⟩ := startsWithSeqCI_length_take _ _ hsw
  -- the dropped suffix has a whitespace head
  obtain ⟨c₆, r₆, hd⟩ : ∃ c₆ r₆, (w ++ [';']).drop 6 = c₆ :: r₆ := by
    cases hdd : (w ++ [';']).drop 6 with
    | nil => rw [hdd] at hr; exact absurd rfl hr
    | cons c₆ r₆ => exact ⟨c₆, r₆, rfl⟩
  have hc₆ws : isWs c₆ = true := by
    by_contra hcw
    simp only [Bool.not_eq_true] at hcw
    rw [hd, wsRun_cons_neg hcw] at hr
    exact hr rfl
  -- position 6 lies inside w
  have hw7 : 7 ≤ w.length := by
    by_contra hlt
    simp only [not_le] at hlt
    rcases Nat.lt_or_ge w.length 6 with h6 | h6
    · have : (w ++ [';']).drop 6 = [] := by
        apply List.drop_eq_nil_of_le
        simp only [List.length_append, List.length_cons, List.length_nil]
        omega
      rw [this] at hd
      exact absurd hd (by simp)
    · have hwe : w.length = 6 := by omega
      have : (w ++ [';']).drop 6 = [';'] := by
        rw [← hwe, List.drop_left]
      rw [this] at hd
      simp only [List.cons.injEq] at hd
      rw [← hd.1] at hc₆ws
      exact absurd hc₆ws (by decide)
  have hdw : (w ++ [';']).drop 6 = w.drop 6 ++ [';'] :=
    List.drop_append_of_le_length (by omega)
  have hdw6 : w.drop 6 = w[6] :: w.drop 7 :=
    List.drop_eq_getElem_cons (by omega)
  have hc₆ : c₆ = w[6] := by
    rw [hdw, hdw6] at hd
    simp only [List.cons_append, List.cons.injEq] at hd
    exact hd.1.symm
  have hc₆mem : c₆ ∈ w := by
    rw [hc₆]
    have hmem6 : w[6] ∈ w.drop 6 := by
      rw [hdw6]
      exact List.mem_cons_self _ _
    exact List.mem_of_mem_drop hmem6
  have hc₆sp : c₆ = ' ' := (hwmem c₆ hc₆mem).2.2 hc₆ws
  -- w is strictly longer than 7: otherwise it ends in the whitespace
  have hw8 : 8 ≤ w.length := by
    by_contra hlt
    have hwe : w.length = 7 := by omega
    have hgl : w.getLast? = some w[6] := by
      rw [List.getLast?_eq_getElem?, hwe]
      simp
    have := hlastw _ hgl
    rw [← hc₆, hc₆sp] at this
    exact absurd this (by decide)
  -- assemble the decomposition
  have hsplit : w = w.take 6 ++ ' ' :: w.drop 7 := by
    conv_lhs => rw [← List.take_append_drop 6 w]
    rw [hdw6, ← hc₆, hc₆sp]
  have hu : w ++ [';'] = w.take 6 ++ ' ' :: (w.drop 7 ++ [';']) := by
    conv_lhs => rw [hsplit]
    simp
  refine ⟨w.take 6, w.drop 7, ?_, hu, ?_⟩
  · rw [show (("SELECT").data.length) = 6 from by decide] at htake6
    have he6 : (w ++ [';']).take 6 = w.take 6 :=
      List.take_append_of_le_length (by omega)
    rw [he6] at htake6
    rw [htake6]
    decide
  · -- bodyOk of the remainder
    have hne : w.drop 7 ≠ [] := by
      intro he
      have := congrArg List.length he
      simp only [List.length_drop, List.length_nil] at this
      omega
    have hmem7 : ∀ c ∈ w.drop 7, c ≠ ';' ∧ c ≠ '`' ∧ (isWs c = true → c = ' ') :=
      fun c hc => hwmem c (List.mem_of_mem_drop hc)
    have hrun7 : noWsRun (w.drop 7) = true :=
      noWsRun_drop 7 (noWsRun_of_append_left hrun)
    have hhead7 : ∀ c, (w.drop 7).head? = some c → isWs c = false := by
      intro c hc
      -- from the pair at positions 6, 7 of w
      have hrun6 : noWsRun (w.drop 6) = true :=
        noWsRun_drop 6 (noWsRun_of_append_left hrun)
      rw [hdw6] at hrun6
      cases hd7 : w.drop 7 with
      | nil => rw [hd7] at hc; exact absurd hc (by simp)
      | cons x xs =>
        rw [hd7] at hc hrun6
        simp only [List.head?_cons, Option.some.injEq] at hc
        subst hc
        have hpair := noWsRun_cons_pair hrun6
        have : isWs w[6] = true := by
          rw [← hc₆, hc₆sp]
          decide
        rw [this] at hpair
        simpa using hpair
    have hlast7 : ∀ c, (w.drop 7).getLast? = some c → isWs c = false := by
      intro c hc
      apply hlastw
      conv_lhs => rw [← List.take_append_drop 7 w]
      rw [List.getLast?_append, hc, Option.or_some]
    -- pack into bodyOk
    unfold bodyOk
    simp only [Bool.and_eq_true]
    refine ⟨⟨⟨⟨?_, ?_⟩, hrun7⟩, ?_⟩, ?_⟩
    · simp [hne]
    · simp only [List.all_eq_true]
      intro c hc
      obtain ⟨h1, h2, h3⟩ := hmem7 c hc
      simp only [Bool.and_eq_true, Bool.not_eq_true', beq_eq_false_iff_ne,
        Bool.or_eq_true, beq_iff_eq]
      refine ⟨⟨h1, h2⟩, ?_⟩
      by_cases hw : isWs c = true
      · exact Or.inr (h3 hw)
      · exact Or.inl (by simpa using hw)
    · cases hd7 : w.drop 7 with
      | nil => exact absurd hd7 hne
      | cons x xs =>
        have := hhead7 x (by rw [hd7]; rfl)
        simp only [List.headD_cons]
        simp [this]
    · cases hgl : (w.drop 7).getLast? with
      | none => rw [List.getLast?_eq_none_iff] at hgl; exact absurd hgl hne
      | some x =>
        have := hlast7 x hgl
        rw [List.getLastD_eq_getLast?, hgl]
        simp [this]

/-- Under the scan invariant, a strategy-3 hit returns the whole suffix,
which is a clean `SELECT` statement. -/
theorem match3At_some_shape {u g : List Char} (hinv : ScanInv u)
    (hm : match3At u = some g) :
    g = u ∧ ∃ kw' body', lowerL kw' = ("select").data
      ∧ u = kw' ++ ' ' :: (body' ++ [';'])
      ∧ bodyOk body' = true := by
  by_cases hsw : startsWithSeqCI (("SELECT").data) u = true
  · by_cases hr : wsRun (u.drop 6) = 0
    · unfold match3At at hm
      rw [if_pos hsw] at hm
      simp only [hr, Nat.reduceBEq, if_true] at hm
      exact absurd hm (by simp)
    · obtain ⟨kw', body', hk, hu, hb⟩ := parse_select hinv hsw hr
      have hsome : match3At u = some u := by
        conv_lhs => rw [hu]
        conv_rhs => rw [hu]
        exact match3At_clean hk hb
      rw [hsome] at hm
      simp only [Option.some.injEq] at hm
      exact ⟨hm.symm, kw', body', hk, hu, hb⟩
  · unfold match3At at hm
    rw [if_neg hsw] at hm
    exact absurd hm (by simp)

/-- Under the scan invariant, strategy 4 cannot fire where strategy 3 did
not: its extra reach needs either a trailing whitespace run or a bare
`SELECT ;` tail, both excluded by the invariant. -/
theorem match4At_none_of_match3At_none {u : List Char} (hinv : ScanInv u)
    (h3 : match3At u = none) : match4At u = none := by
  unfold match4At
  by_cases hsw : startsWithSeqCI (("SELECT").data) u = true
  · rw [if_pos hsw]
    by_cases hr : wsRun (u.drop 6) = 0
    · simp only [hr, Nat.reduceBEq, if_true]
    · exfalso
      obtain ⟨kw', body', hk, hu, hb⟩ := parse_select hinv hsw hr
      have hsome : match3At u = some u := by
        conv_lhs => rw [hu]
        conv_rhs => rw [hu]
        exact match3At_clean hk hb
      rw [h3] at hsome
      exact Option.noConfusion hsome
  · rw [if_neg hsw]

/-- The scan invariant passes to the tail of the scanned text. -/
theorem scanInv_tail {c : Char} {t : List Char} (hinv : ScanInv (c :: t))
    (hne : t ≠ []) : ScanInv t := by
  obtain ⟨w, he, hmem, hrun, hlast⟩ := hinv
  cases w with
  | nil =>
    simp only [List.nil_append, List.cons.injEq] at he
    exact absurd he.2 hne
  | cons x w' =>
    simp only [List.cons_append, List.cons.injEq] at he
    refine ⟨w', he.2, fun y hy => hmem y (List.mem_cons_of_mem _ hy), ?_, ?_⟩
    · rw [he.2]
      rw [← he.2]
      have : noWsRun (c :: t) = true := hrun
      exact noWsRun_tail (by rwa [he.2] at this)
    · intro y hy
      apply hlast
      cases w' with
      | nil => simp at hy
      | cons z w'' => rw [List.getLast?_cons_cons]; exact hy

/-- A strategy-3 scan hit over an invariant-satisfying text is a clean
`SELECT` statement. -/
theorem scan3_shape :
    ∀ (u : List Char), ScanInv u → ∀ {g : List Char},
      scanFirst match3At u = some g →
      ∃ kw' body', lowerL kw' = ("select").data
        ∧ g = kw' ++ ' ' :: (body' ++ [';'])
        ∧ bodyOk body' = true := by
  intro u
  induction u with
  | nil =>
    intro _ g hg
    simp only [scanFirst] at hg
    rw [(by decide : match3At [] = none)] at hg
    exact absurd hg (by simp)
  | cons c t ih =>
    intro hinv g hg
    simp only [scanFirst] at hg
    cases hm : match3At (c :: t) with
    | some g₀ =>
      rw [hm] at hg
      simp only [Option.some.injEq] at hg
      subst hg
      obtain ⟨hgu, kw', body', hk, hu, hb⟩ := match3At_some_shape hinv hm
      exact ⟨kw', body', hk, by rw [hgu, hu], hb⟩
    | none =>
      rw [hm] at hg
      cases ht : t with
      | nil =>
        subst ht
        simp only [scanFirst] at hg
        rw [(by decide : match3At [] = none)] at hg
        exact absurd hg (by simp)
      | cons x xs =>
        exact ih (scanInv_tail hinv (by rw [ht]; simp)) hg

/-- If the strategy-3 scan finds nothing, neither does strategy 4's. -/
theorem scan4_none :
    ∀ (u : List Char), ScanInv u → scanFirst match3At u = none →
      scanFirst match4At u = none := by
  intro u
  induction u with
  | nil =>
    intro _ _
    simp only [scanFirst]
    decide
  | cons c t ih =>
    intro hinv h3
    simp only [scanFirst] at h3 ⊢
    cases hm : match3At (c :: t) with
    | some g₀ => rw [hm] at h3; exact absurd h3 (by simp)
    | none =>
      rw [hm] at h3
      rw [match4At_none_of_match3At_none hinv hm]
      show scanFirst match4At t = none
      rcases eq_or_ne t [] with rfl | hne
      · simp only [scanFirst]
        decide
      · exact ih (scanInv_tail hinv hne) h3

/-- A clean `WITH` statement does not start with `SELECT`, so strategy 5
never fires on it. -/
theorem str5_none_with {kw body : List Char}
    (hkw : lowerL kw = ("with").data) :
    str5 (kw ++ ' ' :: (body ++ [';'])) = none := by
  unfold str5
  rw [if_neg]
  intro hsw
  obtain ⟨k₀, kw', rfl⟩ : ∃ k₀ kw', kw = k₀ :: kw' := by
    cases kw with
    | nil => exact absurd rfl (kw_ne_nil (Or.inr hkw))
    | cons k₀ kw' => exact ⟨k₀, kw', rfl⟩
  rw [startsWithSeq_iff] at hsw
  obtain ⟨r, hr⟩ := hsw
  have hup : pyUpper k₀ = 'S' := by
    have : upperL ((k₀ :: kw') ++ ' ' :: (body ++ [';']))
        = pyUpper k₀ :: upperL (kw' ++ ' ' :: (body ++ [';'])) := rfl
    rw [this, show ("SELECT").data ++ r = 'S' :: (("ELECT").data ++ r)
      from rfl] at hr
    simp only [List.cons.injEq] at hr
    exact hr.1
  have hlo : pyLower k₀ = 'w' := by
    simp only [lowerL, List.map_cons] at hkw
    simp only [List.cons.injEq] at hkw
    exact hkw.1
  rcases pyLower_eq_w hlo with rfl | rfl <;> exact absurd hup (by decide)

/-- The scan invariant holds for a clean statement. -/
theorem scanInv_of_clean {kw body : List Char}
    (hkw : lowerL kw = ("select").data ∨ lowerL kw = ("with").data)
    (hb : bodyOk body = true) :
    ScanInv (kw ++ ' ' :: (body ++ [';'])) := by
  obtain ⟨hbne, hbmem, hbrun, hbhead, hblast⟩ := bodyOk_unpack hb
  obtain ⟨_, _, _, hrun, _⟩ := clean_stmt_facts hkw hb
  refine ⟨kw ++ ' ' :: body, by simp, ?_, hrun, ?_⟩
  · intro c hc
    rcases List.mem_append.mp hc with hc | hc
    · obtain ⟨h1, h2, h3⟩ := kw_facts hkw c hc
      exact ⟨h3, h2, fun hw => absurd hw (by simp [h1])⟩
    · rcases List.mem_cons.mp hc with rfl | hc
      · exact ⟨by decide, by decide, fun _ => rfl⟩
      · exact hbmem c hc
  · intro c hc
    have he : (kw ++ ' ' :: body).getLast? = body.getLast? := by
      cases body with
      | nil => exact absurd rfl hbne
      | cons b t =>
        rw [List.getLast?_append]
        rw [show (' ' :: b :: t).getLast? = (b :: t).getLast?
          from List.getLast?_cons_cons]
        cases hgl : (b :: t).getLast? with
        | none => simp at hgl
        | some x => rw [Option.or_some]
    rw [he] at hc
    exact hblast c hc

/-- Extraction on a clean `WITH` statement: either it fails (no embedded
`SELECT`), or strategy 3 returns an embedded clean `SELECT` statement. -/
theorem extract_clean_with {kw body : List Char}
    (hkw : lowerL kw = ("with").data) (hb : bodyOk body = true) :
    extract_sql (String.mk (kw ++ ' ' :: (body ++ [';']))) = none
    ∨ ∃ kw' body', lowerL kw' = ("select").data ∧ bodyOk body' = true
        ∧ extract_sql (String.mk (kw ++ ' ' :: (body ++ [';'])))
            = some (String.mk (kw' ++ ' ' :: (body' ++ [';']))) := by
  obtain ⟨hstrip, hclean, hticks, hrun, hws⟩ :=
    clean_stmt_facts (Or.inr hkw) hb
  have hne : (kw ++ ' ' :: (body ++ [';'])).isEmpty = false := by simp
  have hinv := scanInv_of_clean (Or.inr hkw) hb
  have hmain : ∀ o, (str1 (kw ++ ' ' :: (body ++ [';']))
      <|> str2 (kw ++ ' ' :: (body ++ [';']))
      <|> str3 (kw ++ ' ' :: (body ++ [';']))
      <|> str4 (kw ++ ' ' :: (body ++ [';']))
      <|> str5 (kw ++ ' ' :: (body ++ [';']))) = o →
      extract_sql (String.mk (kw ++ ' ' :: (body ++ [';'])))
        = o.map String.mk := by
    intro o ho
    unfold extract_sql
    show (if (stripL (kw ++ ' ' :: (body ++ [';']))).isEmpty = true then none
      else _) = _
    rw [hstrip]
    rw [if_neg (by rw [hne]; exact Bool.false_ne_true)]
    show Option.map String.mk _ = _
    rw [ho]
  cases hscan : scanFirst match3At (kw ++ ' ' :: (body ++ [';'])) with
  | some g =>
    obtain ⟨kw', body', hk', hg, hb'⟩ := scan3_shape _ hinv hscan
    right
    refine ⟨kw', body', hk', hb', ?_⟩
    obtain ⟨hstrip', hclean', _, _, _⟩ := clean_stmt_facts (Or.inl hk') hb'
    have hstr3 : str3 (kw ++ ' ' :: (body ++ [';']))
        = some (kw' ++ ' ' :: (body' ++ [';'])) := by
      unfold str3
      rw [hscan]
      show some (clean_sql (stripL g)) = _
      rw [hg, hstrip', hclean']
    rw [hmain (some (kw' ++ ' ' :: (body' ++ [';'])))
      (by rw [str1_none hticks, str2_none hticks, hstr3]; rfl)]
    rfl
  | none =>
    left
    have hstr3 : str3 (kw ++ ' ' :: (body ++ [';'])) = none := by
      unfold str3
      rw [hscan]
      rfl
    have hstr4 : str4 (kw ++ ' ' :: (body ++ [';'])) = none := by
      unfold str4
      rw [scan4_none _ hinv hscan]
    rw [hmain none
      (by rw [str1_none hticks, str2_none hticks, hstr3, hstr4,
        str5_none_with hkw]; rfl)]
    rfl

/-! ## Claims -/

/-- C7.  `save_exchange` returns `false` and leaves the stored sequence
unchanged whenever `was_successful` is false, the user question contains an
instructional-directive marker, or the lowercased assistant answer contains
any fixed error-indicator substring. -/
theorem claim_c7_save_exchange_refuses (ms : List Turn) (q a : String)
    (ok : Bool)
    (h : ok = false
      ∨ pyContains q ("SYSTEM INSTRUCTIONS") = true
      ∨ pyContains q ("SYSTEM_PROMPT") = true
      ∨ ∃ ind ∈ ERROR_INDICATORS, pyContains (pyLowerS a) ind = true) :
    save_exchange ms q a ok = (false, ms) := by
  unfold save_exchange
  split
  · rfl
  · split
    · rfl
    · split
      · rfl
      · rename_i h1 h2 h3
        exfalso
        rcases h with h | h | h | ⟨ind, hmem, hind⟩
        · subst h; exact h1 rfl
        · exact h2 (by simp [h])
        · exact h2 (by simp [h])
        · exact h3 (by
            simp only [List.any_eq_true]
            exact ⟨ind, hmem, hind⟩)

/-- C7 witness: an assistant answer containing the substring `"select "`
(case-insensitively, inside `"SELECT nombre"`) is refused with no store
mutation. -/
theorem claim_c7_witness :
    save_exchange [⟨Role.user, "hola"⟩] ("¿Quién es Ana?")
      ("Claro: SELECT nombre FROM x") true
      = (false, [⟨Role.user, "hola"⟩]) :=
  claim_c7_save_exchange_refuses _ _ _ _
    (Or.inr (Or.inr (Or.inr ⟨"select ", by decide, by decide⟩)))

/-- C6.  Any committed `save_exchange` leaves at most `MAX_MESSAGES` (10)
turns, and the stored sequence is a suffix of the previous sequence plus the
two appended turns — truncation drops the oldest entries first. -/
theorem claim_c6_save_exchange_bounded (ms : List Turn) (q a : String)
    (ok : Bool) (h : (save_exchange ms q a ok).1 = true) :
    (save_exchange ms q a ok).2.length ≤ MAX_MESSAGES
    ∧ (save_exchange ms q a ok).2
        <:+ (ms ++ [⟨Role.user, pyStripS q⟩, ⟨Role.assistant, pyStripS a⟩]) := by
  by_cases h1 : (!ok) = true
  · simp [save_exchange, h1] at h
  · by_cases h2 : (pyContains q ("SYSTEM INSTRUCTIONS")
        || pyContains q ("SYSTEM_PROMPT")) = true
    · simp [save_exchange, h1, h2] at h
    · by_cases h3 : (ERROR_INDICATORS.any
          (fun ind => pyContains (pyLowerS a) ind)) = true
      · simp [save_exchange, h1, h2, h3] at h
      · have heq : save_exchange ms q a ok =
            (true,
              let all := ms ++ [⟨Role.user, pyStripS q⟩,
                ⟨Role.assistant, pyStripS a⟩]
              if all.length > MAX_MESSAGES
                then all.drop (all.length - MAX_MESSAGES) else all) := by
          simp only [save_exchange, h1, h2, h3, if_false, Bool.false_eq_true,
            if_neg]
        rw [heq]
        simp only []
        split
        · rename_i hlen
          refine ⟨?_, List.drop_suffix _ _⟩
          rw [List.length_drop]
          omega
        · rename_i hlen
          simp only [not_lt] at hlen
          exact ⟨hlen, List.suffix_refl _⟩

/-- C6 witness: committing on a store already holding 10 turns truncates to
the 10 most recent turns. -/
theorem claim_c6_witness :
    (save_exchange (List.replicate 10 ⟨Role.user, "x"⟩) ("hola")
        ("Ana trabaja en Madrid") true).2.length ≤ MAX_MESSAGES
    ∧ (save_exchange (List.replicate 10 ⟨Role.user, "x"⟩) ("hola")
        ("Ana trabaja en Madrid") true).2
        <:+ (List.replicate 10 ⟨Role.user, "x"⟩
          ++ [⟨Role.user, pyStripS ("hola")⟩,
              ⟨Role.assistant, pyStripS ("Ana trabaja en Madrid")⟩]) :=
  claim_c6_save_exchange_bounded _ _ _ _ (by decide)

/-- C2 counterexample: a committed `save_exchange` whose stored user turn
contains the error-indicator substring `"where "` case-insensitively — the
user question is never checked against the indicator list, so the claimed
invariant over all stored turn contents fails. -/
theorem claim_c2_counterexample :
    (save_exchange [] ("where is Bob?") ("Bob is in Madrid") true).1 = true
    ∧ (save_exchange [] ("where is Bob?") ("Bob is in Madrid") true).2.any
        (fun t => ERROR_INDICATORS.any
          (fun ind => pyContains (pyLowerS t.content) ind)) = true := by
  decide

/-- C2 (amended).  After a committed `save_exchange`, the appended assistant
turn — the final stored turn, whose content is the stripped answer — contains
no error-indicator substring case-insensitively; user turns are not checked
and may contain indicators. -/
theorem claim_c2_assistant_turn_clean (ms : List Turn) (q a : String)
    (ok : Bool) (h : (save_exchange ms q a ok).1 = true) :
    [(⟨Role.assistant, pyStripS a⟩ : Turn)] <:+ (save_exchange ms q a ok).2
    ∧ ∀ ind ∈ ERROR_INDICATORS,
        pyContains (pyLowerS (pyStripS a)) ind = false := by
  by_cases h1 : (!ok) = true
  · simp [save_exchange, h1] at h
  · by_cases h2 : (pyContains q ("SYSTEM INSTRUCTIONS")
        || pyContains q ("SYSTEM_PROMPT")) = true
    · simp [save_exchange, h1, h2] at h
    · by_cases h3 : (ERROR_INDICATORS.any
          (fun ind => pyContains (pyLowerS a) ind)) = true
      · simp [save_exchange, h1, h2, h3] at h
      · have hclean : ∀ ind ∈ ERROR_INDICATORS,
            pyContains (pyLowerS a) ind = false := by
          intro ind hmem
          by_contra hcon
          simp only [Bool.not_eq_false] at hcon
          exact h3 (by
            simp only [List.any_eq_true]
            exact ⟨ind, hmem, hcon⟩)
        constructor
        · have heq : save_exchange ms q a ok =
              (true,
                let all := ms ++ [⟨Role.user, pyStripS q⟩,
                  ⟨Role.assistant, pyStripS a⟩]
                if all.length > MAX_MESSAGES
                  then all.drop (all.length - MAX_MESSAGES) else all) := by
            simp only [save_exchange, h1, h2, h3, if_false,
              Bool.false_eq_true, if_neg]
          rw [heq]
          simp only []
          split
          · rename_i hlen
            simp only [List.length_append, List.length_cons,
              List.length_nil] at hlen
            have hle : (ms ++ [(⟨Role.user, pyStripS q⟩ : Turn),
                ⟨Role.assistant, pyStripS a⟩]).length - MAX_MESSAGES
                ≤ ms.length := by
              simp only [List.length_append, List.length_cons, List.length_nil]
              unfold MAX_MESSAGES
              omega
            rw [List.drop_append_of_le_length hle]
            exact ⟨ms.drop ((ms ++ [(⟨Role.user, pyStripS q⟩ : Turn),
                ⟨Role.assistant, pyStripS a⟩]).length - MAX_MESSAGES)
              ++ [⟨Role.user, pyStripS q⟩], by simp⟩
          · exact ⟨ms ++ [⟨Role.user, pyStripS q⟩], by simp⟩
        · intro ind hmem
          by_contra hcon
          simp only [Bool.not_eq_false] at hcon
          have hc : containsSub (lowerL a.data) ind.data = true := by
            apply containsSub_lower_strip
            simpa [pyContains, pyLowerS, pyStripS] using hcon
          have := hclean ind hmem
          simp only [pyContains, pyLowerS] at this
          rw [hc] at this
          exact absurd this (by simp)

/-- C2 (amended) witness at a concrete committed exchange. -/
theorem claim_c2_amended_witness :
    [(⟨Role.assistant, pyStripS ("Ana trabaja en Madrid")⟩ : Turn)]
      <:+ (save_exchange [] ("hola") ("Ana trabaja en Madrid") true).2
    ∧ ∀ ind ∈ ERROR_INDICATORS,
        pyContains (pyLowerS (pyStripS ("Ana trabaja en Madrid"))) ind = false :=
  claim_c2_assistant_turn_clean [] ("hola") ("Ana trabaja en Madrid") true (by decide)

/-- C9.  `extract_sql` is idempotent on already-clean, terminator-present
read-only statements: whenever extraction succeeds on such a statement,
re-running extraction on its own output returns the same normalized
string.  (On clean `SELECT` statements the output is the statement itself;
on clean `WITH` statements strategy 3 may return an embedded `SELECT`
suffix, which is again a fixed point.) -/
theorem claim_c9_extract_idempotent (s t : String) (h : IsCleanStmt s.data)
    (ht : extract_sql s = some t) : extract_sql t = some t := by
  obtain ⟨kw, body, hkor, hs, hb⟩ := h
  obtain ⟨sd⟩ := s
  simp only at hs
  subst hs
  rcases hkor with hk | hk
  · have he := extract_clean_select hk hb
    rw [he] at ht
    simp only [Option.some.injEq] at ht
    subst ht
    exact he
  · rcases extract_clean_with hk hb with he | ⟨kw', body', hk', hb', he⟩
    · rw [he] at ht
      exact absurd ht (by simp)
    · rw [he] at ht
      simp only [Option.some.injEq] at ht
      subst ht
      exact extract_clean_select hk' hb'

/-- C9 witness at a concrete clean statement. -/
theorem claim_c9_witness :
    extract_sql ("SELECT nombre FROM consultores;")
      = some ("SELECT nombre FROM consultores;") :=
  claim_c9_extract_idempotent ("SELECT nombre FROM consultores;")
    ("SELECT nombre FROM consultores;")
    ⟨("SELECT").data, ("nombre FROM consultores").data,
      Or.inl (by decide), by decide, by decide⟩
    (by decide)

/-- C10.  The semicolon-terminated strategy applies no `_looks_like_sql`
check: `extract_sql "SELECT 1;"` succeeds and returns `"SELECT 1;"` even
though that candidate fails `_looks_like_sql` (it lacks a `FROM` clause). -/
theorem claim_c10_semicolon_strategy_unchecked :
    extract_sql ("SELECT 1;") = some ("SELECT 1;")
    ∧ looks_like_sql (("SELECT 1;").data) = false := by
  decide

/-- C3 counterexample: on the spec's own example the filter yields
`"SELECT  nombre FROM consultores;"` — with two spaces after `SELECT`,
not the claimed `"SELECT nombre FROM consultores;"` — and a forbidden
field that is a suffix of another identifier corrupts that identifier
(`costohora` becomes `costo` when `hora` is forbidden), so other
identifiers are not always left untouched. -/
theorem claim_c3_counterexample :
    filter_forbidden_fields ("SELECT costohora, nombre FROM consultores;")
        ["costohora"] = "SELECT  nombre FROM consultores;"
    ∧ filter_forbidden_fields ("SELECT costohora, nombre FROM consultores;")
        ["costohora"] ≠ "SELECT nombre FROM consultores;"
    ∧ filter_forbidden_fields ("SELECT costohora, x FROM t;") ["hora"]
        = "SELECT costo x FROM t;" := by
  decide

/-- C3 (amended).  `filter_forbidden_fields` removes comma- or
dot-adjacent occurrences of each forbidden field by raw textual pattern
substitution, without repairing the surrounding whitespace and matching the
field name as a bare substring: the spec's example yields
`"SELECT  nombre FROM consultores;"` (double space left by the removal);
a mid-list occurrence is removed cleanly; a trailing occurrence glues the
previous identifier onto `FROM`; a qualified occurrence leaves the dangling
table qualifier. -/
theorem claim_c3_amended_filter_behaviour :
    filter_forbidden_fields ("SELECT costohora, nombre FROM consultores;")
        ["costohora"] = "SELECT  nombre FROM consultores;"
    ∧ filter_forbidden_fields ("SELECT a, costohora, b FROM t;")
        ["costohora"] = "SELECT a, b FROM t;"
    ∧ filter_forbidden_fields ("SELECT nombre, costohora FROM consultores;")
        ["costohora"] = "SELECT nombreFROM consultores;"
    ∧ filter_forbidden_fields ("SELECT t.costohora, nombre FROM t;")
        ["costohora"] = "SELECT t. nombre FROM t;" := by
  decide

/-- C1 counterexample: a successful consultant search with six result rows
sets `needs_disambiguation`, yet `process` still calls the Memory Filter's
save — which commits the disambiguation answer — so the exchange is
persisted although disambiguation was needed. -/
theorem claim_c1_counterexample :
    (executeQuerySql QueryType.CONSULTANT_SEARCH
        { success := true,
          data := List.replicate 6
            [("nombrecompleto", "Ana Gómez"), ("email", "ana@x.com")],
          sql_executed := "SELECT nombre FROM consultores;"
          }).needs_disambiguation = true
    ∧ (processStep [] ("ana") true true
        (executeQuerySql QueryType.CONSULTANT_SEARCH
          { success := true,
            data := List.replicate 6
              [("nombrecompleto", "Ana Gómez"), ("email", "ana@x.com")],
            sql_executed := "SELECT nombre FROM consultores;"
            }) ("unused")).saveCalled = true
    ∧ (processStep [] ("ana") true true
        (executeQuerySql QueryType.CONSULTANT_SEARCH
          { success := true,
            data := List.replicate 6
              [("nombrecompleto", "Ana Gómez"), ("email", "ana@x.com")],
            sql_executed := "SELECT nombre FROM consultores;"
            }) ("unused")).store ≠ [] := by
  set_option maxRecDepth 40000 in decide

/-- C1 (amended).  `process` calls the Memory Filter's save exactly when a
conversation id and a memory are configured and the unified result's
`success` flag is true — independently of `needs_disambiguation`. -/
theorem claim_c1_save_condition (store : List Turn) (question : String)
    (hasConversationId hasMemory : Bool) (result : QueryResult)
    (synthAnswer : String) :
    (processStep store question hasConversationId hasMemory result
        synthAnswer).saveCalled
      = (hasConversationId && hasMemory && result.success) := by
  unfold processStep
  split
  · split
    · rename_i hc
      exact hc.symm
    · rename_i hc
      simp only [Bool.not_eq_true] at hc
      exact hc.symm
  · split
    · rename_i hc
      exact hc.symm
    · rename_i hc
      simp only [Bool.not_eq_true] at hc
      exact hc.symm

/-- C8.  `validate_sql_safety` fails naming a contained denylisted keyword
whenever the uppercased query contains one (the first such keyword in
denylist order is named), and succeeds on any query that contains none of
the denylist and starts — after trimming and uppercasing — with `SELECT` or
`WITH`. -/
theorem claim_c8_validate_sql_safety (sql : String) :
    ((∃ k ∈ dangerous_keywords, containsSub (upperL sql.data) k.data = true) →
      (validate_sql_safety sql).1 = false
      ∧ ∃ k ∈ dangerous_keywords,
          containsSub (upperL sql.data) k.data = true
          ∧ (validate_sql_safety sql).2
              = "SQL contains forbidden keyword: " ++ k)
    ∧ ((∀ k ∈ dangerous_keywords, containsSub (upperL sql.data) k.data = false) →
      (startsWithSeq (("SELECT").data) (stripL (upperL sql.data)) = true
        ∨ startsWithSeq (("WITH").data) (stripL (upperL sql.data)) = true) →
      validate_sql_safety sql = (true, "")) := by
  constructor
  · rintro ⟨k, hk, hck⟩
    unfold validate_sql_safety
    cases hfind : dangerous_keywords.find?
        (fun k => containsSub (upperL sql.data) k.data) with
    | none =>
      exfalso
      have hnone := List.find?_eq_none.mp hfind k hk
      rw [hck] at hnone
      exact hnone rfl
    | some k0 =>
      have hmem : k0 ∈ dangerous_keywords := List.mem_of_find?_eq_some hfind
      have hpred := List.find?_some hfind
      exact ⟨rfl, k0, hmem, hpred, rfl⟩
  · intro hall hstart
    unfold validate_sql_safety
    have hfind : dangerous_keywords.find?
        (fun k => containsSub (upperL sql.data) k.data) = none := by
      apply List.find?_eq_none.mpr
      intro k hk
      rw [hall k hk]
      exact Bool.false_ne_true
    rw [hfind]
    have hcond : (startsWithSeq (("SELECT").data) (stripL (upperL sql.data))
        || startsWithSeq (("WITH").data) (stripL (upperL sql.data))) = true := by
      rcases hstart with h | h <;> simp [h]
    simp only [hcond, if_true]

/-- C8 witness: `"DROP TABLE consultores;"` fails naming `DROP`, and a
clean `SELECT` succeeds. -/
theorem claim_c8_witness :
    ((validate_sql_safety ("DROP TABLE consultores;")).1 = false
      ∧ ∃ k ∈ dangerous_keywords,
          containsSub (upperL ("DROP TABLE consultores;").data) k.data = true
          ∧ (validate_sql_safety ("DROP TABLE consultores;")).2
              = "SQL contains forbidden keyword: " ++ k)
    ∧ validate_sql_safety ("SELECT nombre FROM consultores;") = (true, "")
    ∧ (validate_sql_safety ("DROP TABLE consultores;")).2
        = "SQL contains forbidden keyword: DROP" :=
  ⟨(claim_c8_validate_sql_safety ("DROP TABLE consultores;")).1
      ⟨"DROP", by decide, by decide⟩,
    (claim_c8_validate_sql_safety ("SELECT nombre FROM consultores;")).2
      (by decide) (Or.inl (by decide)),
    by decide⟩

/-- Exhaustion behaviour of the retry loop: if no remaining attempt
succeeds, the loop terminates with the failure record; `last_sql` and
`last_error` are overwritten by every failing attempt, so the terminal
values come from the final attempt alone (or from the incoming accumulators
when no attempt runs). -/
theorem queryGo_exhaust (n : Nat) (attempts : Nat → Outcome) :
    ∀ (remaining i : Nat) (ls : Option String) (le : Option String),
      (∀ j, i ≤ j → j < i + remaining → (attempts j).isOk = false) →
      queryGo n attempts remaining i ls le =
        { success := false, data := [],
          sql_executed := ((if remaining = 0 then ls
            else (attempts (i + remaining - 1)).lastSql).getD ""),
          error_message := (if remaining = 0 then le
            else some ((attempts (i + remaining - 1)).lastErr)),
          retries_used := n } := by
  intro remaining
  induction remaining with
  | zero =>
    intro i ls le _
    simp [queryGo]
  | succ r ih =>
    intro i ls le h
    have hi : (attempts i).isOk = false := h i (Nat.le_refl i) (by omega)
    have hrec : ∀ (o : Outcome), attempts i = o → o.isOk = false →
        queryGo n attempts (r + 1) i ls le
          = queryGo n attempts r (i + 1) o.lastSql (some o.lastErr) := by
      intro o ho hno
      cases o with
      | ok d s => simp [Outcome.isOk] at hno
      | timeout => simp [queryGo, ho, Outcome.lastSql, Outcome.lastErr]
      | extractFail => simp [queryGo, ho, Outcome.lastSql, Outcome.lastErr]
      | fail m ms => simp [queryGo, ho, Outcome.lastSql, Outcome.lastErr]
    rw [hrec (attempts i) rfl hi,
      ih (i + 1) _ _ (fun j hj1 hj2 => h j (by omega) (by omega))]
    cases r with
    | zero => simp
    | succ r' =>
      have h1 : i + 1 + (r' + 1) - 1 = i + (r' + 1 + 1) - 1 := by omega
      simp [h1]

/-- C4.  When every attempt fails, the Safe Query Engine's `query` returns
the terminal failure record: `success = false`, no rows,
`retries_used = max_retries`, the error message of the final attempt, and
the final attempt's retained query text (or the empty string).  The
embedding is a total function, matching the source's property of never
raising past its own boundary. -/
theorem claim_c4_engine_exhaustion (n : Nat) (attempts : Nat → Outcome)
    (h : ∀ i, i < n → (attempts i).isOk = false) :
    SafeSQLEngine_query n attempts =
      { success := false, data := [],
        sql_executed := ((if n = 0 then (none : Option String)
          else (attempts (n - 1)).lastSql).getD ""),
        error_message := (if n = 0 then none
          else some ((attempts (n - 1)).lastErr)),
        retries_used := n } := by
  unfold SafeSQLEngine_query
  rw [queryGo_exhaust n attempts n 0 none none
    (fun j h1 h2 => h j (by omega))]
  simp only [Nat.zero_add]

/-- C4 witness: two failing attempts with `max_retries = 2`; the terminal
result keeps the final attempt's error and query text. -/
theorem claim_c4_witness :
    SafeSQLEngine_query 2
        (fun i => if i = 0 then Outcome.timeout
          else Outcome.fail ("relation t does not exist")
            (some ("SELECT a FROM t;"))) =
      { success := false, data := [],
        sql_executed := "SELECT a FROM t;",
        error_message := some ("relation t does not exist"),
        retries_used := 2 } := by
  have := claim_c4_engine_exhaustion 2
    (fun i => if i = 0 then Outcome.timeout
      else Outcome.fail ("relation t does not exist")
        (some ("SELECT a FROM t;")))
    (by decide)
  rw [this]
  rfl

/-- Success behaviour of the retry loop: the first successful attempt
returns immediately with `retries_used` equal to its 0-based index. -/
theorem queryGo_success (n : Nat) (attempts : Nat → Outcome)
    (k : Nat) (data : List Row) (sql : String)
    (hok : attempts k = Outcome.ok data sql)
    (hfail : ∀ i, i < k → (attempts i).isOk = false) :
    ∀ (remaining i : Nat) (ls : Option String) (le : Option String),
      i ≤ k → k < i + remaining →
      queryGo n attempts remaining i ls le =
        { success := true, data := data, sql_executed := sql,
          error_message := none, retries_used := k } := by
  intro remaining
  induction remaining with
  | zero =>
    intro i ls le h1 h2
    omega
  | succ r ih =>
    intro i ls le h1 h2
    by_cases hik : i = k
    · subst hik
      simp [queryGo, hok]
    · have hi : (attempts i).isOk = false := hfail i (by omega)
      have hrec : ∀ (o : Outcome), attempts i = o → o.isOk = false →
          queryGo n attempts (r + 1) i ls le
            = queryGo n attempts r (i + 1) o.lastSql (some o.lastErr) := by
        intro o ho hno
        cases o with
        | ok d s => simp [Outcome.isOk] at hno
        | timeout => simp [queryGo, ho, Outcome.lastSql, Outcome.lastErr]
        | extractFail => simp [queryGo, ho, Outcome.lastSql, Outcome.lastErr]
        | fail m ms => simp [queryGo, ho, Outcome.lastSql, Outcome.lastErr]
      rw [hrec (attempts i) rfl hi]
      exact ih (i + 1) _ _ (by omega) (by omega)

/-- C5.  The Safe Query Engine returns immediately on the first successful
attempt with `retries_used` equal to that attempt's 0-based index (so with
`max_retries = 3`, failures on attempts 1 and 2 and success on attempt 3
yield `success = true, attempts_used = 2`), and the result does not depend
on the outcomes of any attempt after the first success — no further
attempts influence it. -/
theorem claim_c5_engine_first_success (n k : Nat) (attempts : Nat → Outcome)
    (data : List Row) (sql : String)
    (hk : k < n) (hok : attempts k = Outcome.ok data sql)
    (hfail : ∀ i, i < k → (attempts i).isOk = false) :
    SafeSQLEngine_query n attempts =
      { success := true, data := data, sql_executed := sql,
        error_message := none, retries_used := k }
    ∧ ∀ attempts2 : Nat → Outcome, (∀ i, i ≤ k → attempts2 i = attempts i) →
        SafeSQLEngine_query n attempts2 = SafeSQLEngine_query n attempts := by
  have h1 : SafeSQLEngine_query n attempts =
      { success := true, data := data, sql_executed := sql,
        error_message := none, retries_used := k } := by
    unfold SafeSQLEngine_query
    exact queryGo_success n attempts k data sql hok hfail n 0 none none
      (by omega) (by omega)
  refine ⟨h1, ?_⟩
  intro attempts2 hagree
  have hok2 : attempts2 k = Outcome.ok data sql := by
    rw [hagree k (Nat.le_refl k), hok]
  have hfail2 : ∀ i, i < k → (attempts2 i).isOk = false := by
    intro i hik
    rw [hagree i (by omega)]
    exact hfail i hik
  have h2 : SafeSQLEngine_query n attempts2 =
      { success := true, data := data, sql_executed := sql,
        error_message := none, retries_used := k } := by
    unfold SafeSQLEngine_query
    exact queryGo_success n attempts2 k data sql hok2 hfail2 n 0 none none
      (by omega) (by omega)
  rw [h1, h2]

/-- C5 witness: `max_retries = 3`, execution fails on attempts 1 and 2 and
succeeds on attempt 3 (0-based index 2): `success = true`,
`attempts_used = 2`. -/
theorem claim_c5_witness :
    SafeSQLEngine_query 3
        (fun i => if i < 2 then Outcome.fail ("db error")
            (some ("SELECT a FROM t;"))
          else Outcome.ok [[("nombrecompleto", "Ana")]]
            ("SELECT a FROM t;")) =
      { success := true, data := [[("nombrecompleto", "Ana")]],
        sql_executed := "SELECT a FROM t;",
        error_message := none, retries_used := 2 } :=
  (claim_c5_engine_first_success 3 2
    (fun i => if i < 2 then Outcome.fail ("db error")
        (some ("SELECT a FROM t;"))
      else Outcome.ok [[("nombrecompleto", "Ana")]] ("SELECT a FROM t;"))
    [[("nombrecompleto", "Ana")]] ("SELECT a FROM t;")
    (by decide) (by decide) (by decide)).1

end Cerebro
